import Mathlib

set_option autoImplicit false
set_option maxRecDepth 4000

/-
Verification of the PRVulnAnaly function-location and extraction engine.

Strings are modelled as lists of characters (`Str`).  Python regular
expression searches are modelled by explicit matching functions; each
matcher is documented with the regex it implements.  `re.search` scans
candidate start positions left to right and succeeds at the first
position admitting a match; leftmost-greedy backtracking inside a match
is resolved explicitly where the captured groups depend on it (see the
comments on the individual matchers).  Character classes `\w` and `\s`
are modelled by their ASCII parts, which covers every identifier and
patch text the repository handles.
-/

abbrev Str := List Char

/-- Python regex `\w` (ASCII part): letters, digits, underscore. -/
def isWordChar (c : Char) : Bool := c.isAlphanum || c = '_'

/-- Python regex `\s` / `str.strip` whitespace (ASCII part). -/
def isPyWs (c : Char) : Bool :=
  c = ' ' || c = '\t' || c = '\n' || c = '\r' || c = '\x0b' || c = '\x0c'

/-- Characters of the class `[\w\s\*&]` used by the bare-name header
pattern of `extract_cpp_function`. -/
def cppPrefixChar (c : Char) : Bool := isWordChar c || isPyWs c || c = '*' || c = '&'

/-- Characters of the class `[\w\s:*&<>]` used by the patterns of
`extract_modified_functions`. -/
def classChar (c : Char) : Bool :=
  isWordChar c || isPyWs c || c = ':' || c = '*' || c = '&' || c = '<' || c = '>'

/-- Python `str.strip()`: drop leading and trailing whitespace. -/
def stripStr (u : Str) : Str :=
  ((u.dropWhile isPyWs).reverse.dropWhile isPyWs).reverse

/-- Python `s[a:b]` slice on character lists. -/
def sliceStr (u : Str) (a b : Nat) : Str := (u.drop a).take (b - a)

/-- Python `s.split('\n')`. -/
def splitNl : Str → List Str
  | [] => [[]]
  | c :: t =>
    if c = '\n' then [] :: splitNl t
    else
      match splitNl t with
      | [] => [[c]]
      | h :: r => (c :: h) :: r

/-- Python `'\n'.join(lines)`. -/
def joinNl : List Str → Str
  | [] => []
  | [l] => l
  | l :: ls => l ++ '\n' :: joinNl ls

/-- Number of newline characters in a string. -/
def countNl (u : Str) : Nat := u.count '\n'

/-- Consume a literal string at the head of the input
(`re.escape`d literal in a pattern). -/
def dropLit (lit : Str) (u : Str) : Option Str :=
  if lit.isPrefixOf u then some (u.drop lit.length) else none

/-- Matcher for `NAME\s*\(` at the head of the input: the escaped name,
then greedy `\s*`, then a literal parenthesis.  Deterministic because
the parenthesis is not a whitespace character. -/
def matchNameParen (name : Str) (u : Str) : Bool :=
  name.isPrefixOf u && ((u.drop name.length).dropWhile isPyWs).head? = some '('

/-- Scanner for the optional greedy prefix `(?:[\w\s\*&]+\s+)?` in front
of `NAME\s*\(`.  The boolean argument records whether at least one
class character has been consumed; a match is possible at the current
split point whenever the previously consumed character run is nonempty
and the character being consumed is whitespace (this realises
`[\w\s\*&]+\s+` because `\s` is contained in the class). -/
def gScan (name : Str) : Bool → Str → Bool
  | _, [] => false
  | consumed, c :: rest =>
    if cppPrefixChar c then
      (consumed && isPyWs c && matchNameParen name rest) || gScan name true rest
    else false

/-- Python `function_name.split("::", 1)` when `"::" in function_name`:
split at the first occurrence of `::`. -/
def splitDC : Str → Option (Str × Str)
  | [] => none
  | c :: rest =>
    if c = ':' && rest.head? = some ':' then some ([], rest.tail)
    else (splitDC rest).map (fun p => (c :: p.1, p.2))

/-- Matcher for `CLASS::\s*METHOD\s*\(` at the head of the input
(the qualified-name header pattern of `extract_cpp_function`). -/
def cppQualAt (cls meth : Str) (u : Str) : Bool :=
  match dropLit (cls ++ [':', ':']) u with
  | none => false
  | some u1 =>
    match dropLit meth (u1.dropWhile isPyWs) with
    | none => false
    | some u3 => ((u3.dropWhile isPyWs).head? = some '(' : Bool)

/-- Match of the header pattern of `extract_cpp_function` at one
position: the qualified pattern when the name contains `::`, otherwise
`(?:[\w\s\*&]+\s+)?NAME\s*\(`. -/
def cppHeaderAt (fname : Str) (u : Str) : Bool :=
  match splitDC fname with
  | some p => cppQualAt p.1 p.2 u
  | none => matchNameParen fname u || gScan fname false u

/-- Auxiliary scanner for `re.search`: try each start position from `i`
upward, returning the first index whose suffix matches. -/
def searchIdxAux (p : Str → Bool) : Nat → Str → Option Nat
  | i, [] => if p [] then some i else none
  | i, u@(_ :: t) => if p u then some i else searchIdxAux p (i + 1) t

/-- `re.search(pattern, content).start()`: index of the leftmost
position at which the pattern matches. -/
def searchIdx (p : Str → Bool) (u : Str) : Option Nat := searchIdxAux p 0 u

/-- Python `content.rfind('\n', 0, start)`, then `+1` (or `0` when the
newline is absent): index of the first character of the line containing
position `start`. -/
def lsAux : Str → Nat → Nat → Nat
  | [], _, best => best
  | c :: t, i, best => lsAux t (i + 1) (if c = '\n' then i + 1 else best)

def lineStartAt (u : Str) (start : Nat) : Nat := lsAux (u.take start) 0 0

/-- Python `content.find(c, start)`: index of the first occurrence of
`c` at or after `start`. -/
def findIdxFrom (c : Char) (u : Str) (start : Nat) : Option Nat :=
  searchIdxAux (fun v => v.head? = some c) start (u.drop start)

/-- The brace-depth scan of `extract_cpp_function`: starting from the
opening brace, count `\x7b` as `+1` and `\x7d` as `-1`; return the
offset of the character at which the counter returns to zero, `none`
when it never does. -/
def braceClose : Str → Int → Option Nat
  | [], _ => none
  | c :: t, cnt =>
    if c = '\x7b' then (braceClose t (cnt + 1)).map (· + 1)
    else if c = '\x7d' then
      if cnt - 1 = 0 then some 0 else (braceClose t (cnt - 1)).map (· + 1)
    else (braceClose t cnt).map (· + 1)

/-- Embedding of `extract_cpp_function(content, function_name)`
(src/pr_analysis/pr_get_preFunc.py).  Locate the header via the regex
search; take the start of the header's source line; find the first
opening brace at or after the header; scan to the matching close; return
the stripped slice.  The Python `try`/`except` wrapper returns `None`
on any exception, which the total Lean function needs no counterpart
for. -/
def extract_cpp_function (content fname : Str) : Option Str :=
  if content = [] then none
  else
    match searchIdx (cppHeaderAt fname) content with
    | none => none
    | some start =>
      match findIdxFrom '\x7b' content start with
      | none => none
      | some bs =>
        match braceClose (content.drop bs) 0 with
        | none => none
        | some off =>
          some (stripStr (sliceStr content (lineStartAt content start) (bs + off + 1)))

/-- Parse `(\w+)::(\w+)\s*\(` at the head of the input, returning the
two captured groups and the rest after the parenthesis.  Both `\w+`
runs are maximal; this is exact because the characters that must follow
them (`:` and `(`) are not word characters, so no backtracking into a
shorter run can succeed. -/
def qualAt (u : Str) : Option (Str × Str × Str) :=
  let c := u.takeWhile isWordChar
  if c = [] then none
  else
    match u.drop c.length with
    | ':' :: ':' :: u2 =>
      let f := u2.takeWhile isWordChar
      if f = [] then none
      else
        match (u2.drop f.length).dropWhile isPyWs with
        | '(' :: rest => some (c, f, rest)
        | _ => none
    | _ => none

/-- Split-point scan shared by the patterns below: try split points `k`
from `k0` down to `1`; a split point is accepted when the character
before it is whitespace and `qualAt` succeeds on the suffix.  Python's
leftmost-greedy backtracking over `stuff\s+` prefixes returns the match
whose function token starts at the largest such `k` (for every match
with a smaller split point there is a greedier, earlier-tried
decomposition using the larger one), so taking the largest `k` is
faithful. -/
def tryK (u : Str) : Nat → Option (Str × Str × Str)
  | 0 => none
  | k + 1 =>
    if isPyWs (u.getD k ' ') then
      match qualAt (u.drop (k + 1)) with
      | some r => some r
      | none => tryK u k
    else tryK u k

/-- Match of `([\w\s:*&<>]+)?\s+(\w+)::(\w+)\s*\(` at one position
(the deleted-line pattern of `extract_modified_functions`): the prefix
`([\w\s:*&<>]+)?\s+` matches `u[0..k)` exactly when that segment is a
nonempty run of class characters whose last character is whitespace
(the optional group absent leaves a pure `\s+` run, which the class
also contains). -/
def qualKmax (u : Str) : Option (Str × Str) :=
  match tryK u (u.takeWhile classChar).length with
  | some (c, f, _) => some (c, f)
  | none => none

/-- `re.search` for the deleted-line qualified pattern: leftmost start
position, then the greedy split point. -/
def pass2search : Str → Option (Str × Str)
  | [] => none
  | u@(_ :: t) =>
    match qualKmax u with
    | some r => some r
    | none => pass2search t

/-- Consume `\d+` (a nonempty maximal digit run; exact since the
following pattern characters are not digits). -/
def dropDigits (u : Str) : Option Str :=
  let d := u.takeWhile Char.isDigit
  if d = [] then none else some (u.drop d.length)

/-- Match of the hunk-header pattern
`@@ -\d+,\d+ \+\d+,\d+ @@(?:\s+(?:[\w\s:*&<>]+))?\s+(\w+)::(\w+)\s*\(`
at one position, returning the captured groups and the rest of the
input after the match.  The middle part `(?:\s+(?:[\w\s:*&<>]+))?\s+`
matches `v[0..k)` exactly when that segment is a nonempty run of class
characters beginning and ending with whitespace; the greedy engine
selects the largest viable `k`. -/
def headerAt (u : Str) : Option (Str × Str × Str) :=
  match dropLit ("@@ -".toList) u with
  | none => none
  | some u1 =>
    match dropDigits u1 with
    | none => none
    | some u2 =>
      match u2 with
      | ',' :: u3 =>
        match dropDigits u3 with
        | none => none
        | some u4 =>
          match dropLit (" +".toList) u4 with
          | none => none
          | some u5 =>
            match dropDigits u5 with
            | none => none
            | some u6 =>
              match u6 with
              | ',' :: u7 =>
                match dropDigits u7 with
                | none => none
                | some u8 =>
                  match dropLit (" @@".toList) u8 with
                  | none => none
                  | some v =>
                    if (v.head?.map isPyWs).getD false then
                      tryK v (v.takeWhile classChar).length
                    else none
              | _ => none
      | _ => none

/-- Python `re.findall(header_pattern, patch_text)`: collect the groups
of successive non-overlapping leftmost matches, resuming after each
match.  The fuel argument bounds the number of scanning steps; it is
initialised with the input length, which suffices because every match
consumes at least the literal `@@ -`. -/
def findallHeader : Nat → Str → List (Str × Str)
  | 0, _ => []
  | fuel + 1, u =>
    match headerAt u with
    | some (c, f, rest) => (c, f) :: findallHeader fuel rest
    | none =>
      match u with
      | [] => []
      | _ :: t => findallHeader fuel t

def headerMatches (patch : Str) : List (Str × Str) :=
  findallHeader patch.length patch

/-- The qualified names contributed by the hunk-header pass of
`extract_modified_functions`. -/
def headerPassNames (patch : Str) : List Str :=
  (headerMatches patch).map (fun p => p.1 ++ ':' :: ':' :: p.2)

/-- Match of `^\s*([\w\s:*&<>]+)\s+(\w+)\s*\([^)]*\)` (the standalone
deleted-line pattern), anchored at the start of the line; returns the
second captured group.  The prefix `\s*([\w\s:*&<>]+)\s+` matches
`u[0..k)` exactly when that segment is a run of at least two class
characters ending in whitespace; the greedy engine selects the largest
viable `k`.  `[^)]*\)` succeeds exactly when a closing parenthesis
occurs after the opening one. -/
def tryK3 (u : Str) : Nat → Option Str
  | 0 => none
  | 1 => none
  | k + 1 =>
    if isPyWs (u.getD k ' ') then
      let f := (u.drop (k + 1)).takeWhile isWordChar
      if f = [] then tryK3 u k
      else
        match ((u.drop (k + 1)).drop f.length).dropWhile isPyWs with
        | '(' :: r => if r.contains ')' then some f else tryK3 u k
        | _ => tryK3 u k
    else tryK3 u k

def bareMatchName (u : Str) : Option Str :=
  tryK3 u (u.takeWhile classChar).length

/-- Python `"::" in s`. -/
def hasDCol : Str → Bool
  | [] => false
  | [_] => false
  | a :: b :: t => (a = ':' && b = ':') || hasDCol (b :: t)

/-- `set.add`: sets of names are modelled as duplicate-free lists in
insertion order. -/
def addName (s : List Str) (n : Str) : List Str :=
  if s.contains n then s else s ++ [n]

/-- The control-flow keywords rejected by the standalone pass. -/
def kwList : List Str := ["if".toList, "while".toList, "for".toList, "switch".toList]

/-- The qualified deleted-line pass on one stripped line content:
a match of the qualified pattern adds `class::func`. -/
def delQualStep (acc : List Str) (content : Str) : List Str :=
  match pass2search content with
  | some (c, f) => addName acc (c ++ ':' :: ':' :: f)
  | none => acc

/-- The standalone deleted-line pass on one stripped line content: a
match of the standalone pattern adds the bare name when the content has
no `::` and the name is no keyword. -/
def delBareStep (acc : List Str) (content : Str) : List Str :=
  match bareMatchName content with
  | some f => if !hasDCol content && !kwList.contains f then addName acc f else acc
  | none => acc

/-- Processing of one patch line by the deleted-line passes of
`extract_modified_functions`: on a line starting with `-` whose
remainder strips to something nonempty, run the qualified pass and then
the standalone pass on the stripped content. -/
def procDelLine (acc : List Str) (line : Str) : List Str :=
  if line.head? = some '-' then
    if stripStr (line.drop 1) = [] then acc
    else delBareStep (delQualStep acc (stripStr (line.drop 1))) (stripStr (line.drop 1))
  else acc

/-- Processing of one adjacent line pair by the rename pass: when a
deleted line is immediately followed by an added line and both match
the qualified pattern with the same class but different method names,
add the deleted line's qualified name. -/
def procRename (acc : List Str) (p : Str × Str) : List Str :=
  if p.1.head? = some '-' && p.2.head? = some '+' then
    match pass2search (stripStr (p.1.drop 1)), pass2search (stripStr (p.2.drop 1)) with
    | some (c1, f1), some (c2, f2) =>
      if c1 = c2 ∧ f1 ≠ f2 then addName acc (c1 ++ ':' :: ':' :: f1) else acc
    | _, _ => acc
  else acc

/-- Embedding of `extract_modified_functions(patch_text)`
(src/pr_analysis/pr_analysis_functionName.py): the hunk-header pass,
the two deleted-line passes, and the rename pass, accumulated into one
set of names. -/
def extract_modified_functions (patch : Str) : List Str :=
  let s1 := (headerPassNames patch).foldl addName []
  let lines := splitNl patch
  let s2 := lines.foldl procDelLine s1
  (lines.zip lines.tail).foldl procRename s2

/-- The tail `(?:\s*->.*?)?:` of the Python `def` pattern: try the
optional return-annotation group (greedy `\s*`, literal arrow, lazy
`.*?` of non-newline characters up to the first reachable colon); when
the group cannot complete, fall back to requiring the colon
immediately. -/
def defTail (v : Str) : Bool :=
  match v.dropWhile isPyWs with
  | '-' :: '>' :: v2 =>
    match v2.dropWhile (fun c => !(c = ':') && !(c = '\n')) with
    | ':' :: _ => true
    | _ => v.head? = some ':'
  | _ => v.head? = some ':'

/-- Match of `def\s+NAME\s*\([^)]*\)(?:\s*->.*?)?:` at one position
(the function-header pattern of `find_function_in_file`). -/
def defMatchAt (name : Str) (u : Str) : Bool :=
  match dropLit ("def".toList) u with
  | none => false
  | some u1 =>
    if (u1.takeWhile isPyWs).length = 0 then false
    else
      match dropLit name (u1.dropWhile isPyWs) with
      | none => false
      | some u3 =>
        match u3.dropWhile isPyWs with
        | '(' :: u4 =>
          match u4.dropWhile (fun c => !(c = ')')) with
          | ')' :: u6 => defTail u6
          | _ => false
        | _ => false

def defSearchIdx (name : Str) (content : Str) : Option Nat :=
  searchIdx (defMatchAt name) content

/-- Line number of the located header: newline count before the match
start. -/
def defStartLine (content : Str) (sp : Nat) : Nat := countNl (content.take sp)

def defLineOf (content : Str) (sp : Nat) : Str :=
  (splitNl content).getD (defStartLine content sp) []

/-- The header line's leading-whitespace length (regex `^(\s*)`). -/
def defBaseOf (content : Str) (sp : Nat) : Nat :=
  ((defLineOf content sp).takeWhile isPyWs).length

def defBodyLines (content : Str) (sp : Nat) : List Str :=
  (splitNl content).drop (defStartLine content sp + 1)

/-- The collection loop of `find_function_in_file`: blank lines are
always appended; a non-blank line with leading-whitespace length at
most the baseline terminates the loop, but only when the loop is past
the first line after the header (`current_line > start_line + 1`),
which the boolean argument tracks. -/
def collectLoop (base : Nat) : Bool → List Str → List Str
  | _, [] => []
  | past, line :: rest =>
    if line.all isPyWs then line :: collectLoop base true rest
    else if decide ((line.takeWhile isPyWs).length ≤ base) && past then []
    else line :: collectLoop base true rest

/-- Embedding of `find_function_in_file(file_path, function_name)`
(src/pr_analysis/download_github_file.py), modelled on the file's text
(the file read is outside the embedding): locate the `def` header,
compute the header line and its indentation baseline, and collect the
body lines. -/
def find_function_in_file (content name : Str) : Option Str :=
  match defSearchIdx name content with
  | none => none
  | some sp =>
    some (joinNl (defLineOf content sp ::
      collectLoop (defBaseOf content sp) false (defBodyLines content sp)))

/-- Follows the spec's words for the indentation-delimited extractor:
collect subsequent lines verbatim, including blank lines, until a
non-blank line is found whose leading-whitespace length is less than or
equal to the baseline. -/
def specIndentCollect (base : Nat) : List Str → List Str
  | [] => []
  | line :: rest =>
    if line.all isPyWs then line :: specIndentCollect base rest
    else if (line.takeWhile isPyWs).length ≤ base then []
    else line :: specIndentCollect base rest

/-- Hypothesis under which the code's loop and the spec's loop agree:
the first line after the header, when present, is blank or indented
deeper than the baseline (true of every syntactically valid Python
function body). -/
def firstBodyOk (content : Str) (sp : Nat) : Bool :=
  match defBodyLines content sp with
  | [] => true
  | l :: _ => l.all isPyWs || decide (defBaseOf content sp < (l.takeWhile isPyWs).length)

/-- Python dict lookup (unique keys; first match) on association
lists. -/
def alookup {β : Type} : List (Str × β) → Str → Option β
  | [], _ => none
  | p :: t, k => if p.1 = k then some p.2 else alookup t k

/-- Python dict assignment `m[k] = v`: replace the binding when the key
is present, append it otherwise. -/
def aset {β : Type} : List (Str × β) → Str → β → List (Str × β)
  | [], k, v => [(k, v)]
  | p :: t, k, v => if p.1 = k then (k, v) :: t else p :: aset t k v

/-- Nat-keyed variants for the PR-number-keyed result store (Python
keys the store by `str(pr_number)`; the embedding keys it by the number
itself). -/
def nlookup {β : Type} : List (Nat × β) → Nat → Option β
  | [], _ => none
  | p :: t, k => if p.1 = k then some p.2 else nlookup t k

def nset {β : Type} : List (Nat × β) → Nat → β → List (Nat × β)
  | [], k, v => [(k, v)]
  | p :: t, k, v => if p.1 = k then (k, v) :: t else p :: nset t k v

/-- One extracted-function record (the `{file, commit, source}` value of
the output schema). -/
structure Entry where
  file : Str
  commit : Str
  source : Str
deriving DecidableEq

/-- The `patches` value for one file, reduced to the field `process_pr`
reads. -/
structure PatchInfo where
  blob_url : Option Str
deriving DecidableEq

/-- The `modified_functions` field of a PR record. -/
structure ModFuncs where
  all : List Str
  by_file : List (Str × List Str)
deriving DecidableEq

/-- A PR record, reduced to the fields `process_pr` reads. -/
structure PRRec where
  number : Nat
  modified_functions : Option ModFuncs
  patches : List (Str × PatchInfo)
deriving DecidableEq

/-- The external collaborators of `process_pr`, passed as oracles:
`resolvePrev` models `get_previous_commit_info` (parent commit and API
URL from a blob URL), `fetchFile` models `download_file_from_commit`,
and `parseBlobPath` models the URL regex plus `urllib.parse.unquote`
that recover the file path from the blob URL. -/
structure NetEnv where
  resolvePrev : Str → Option (Str × Str)
  fetchFile : Str → Str → Option Str
  parseBlobPath : Str → Option Str

/-- External work performed by the pipeline, recorded so that theorems
can state that none happened: a parent-commit resolution, a file
download, or a function extraction. -/
inductive NetCall where
  | resolve (blobUrl : Str)
  | fetch (url path : Str)
  | extractCall (fname : Str)
deriving DecidableEq

/-- The `function_file_map` construction of `process_pr`: later files
overwrite earlier ones for a repeated function name. -/
def function_file_map (by_file : List (Str × List Str)) : List (Str × Str) :=
  by_file.foldl (fun m fp => fp.2.foldl (fun m2 fn => aset m2 fn fp.1) m) []

/-- The body of the per-function loop of `process_pr`.  A function
already present in the prior results for this PR is copied unchanged;
otherwise the chain file-map lookup, patch lookup, blob URL, parent
resolution, path parse, download, extraction runs, any failure skipping
the function. -/
def processFunction (env : NetEnv) (patches : List (Str × PatchInfo))
    (ffm : List (Str × Str)) (pr_existing : List (Str × Entry))
    (acc : List (Str × Entry) × List NetCall) (fname : Str) :
    List (Str × Entry) × List NetCall :=
  match alookup pr_existing fname with
  | some v => (aset acc.1 fname v, acc.2)
  | none =>
    match alookup ffm fname with
    | none => acc
    | some file_path =>
      match alookup patches file_path with
      | none => acc
      | some patch_info =>
        match patch_info.blob_url with
        | none => acc
        | some blob_url =>
          if blob_url = [] then acc
          else
            let log1 := acc.2 ++ [NetCall.resolve blob_url]
            match env.resolvePrev blob_url with
            | none => (acc.1, log1)
            | some (prev_commit, prev_url) =>
              if prev_commit = [] ∨ prev_url = [] then (acc.1, log1)
              else
                match env.parseBlobPath blob_url with
                | none => (acc.1, log1)
                | some path =>
                  let log2 := log1 ++ [NetCall.fetch prev_url path]
                  match env.fetchFile prev_url path with
                  | none => (acc.1, log2)
                  | some content =>
                    if content = [] then (acc.1, log2)
                    else
                      let log3 := log2 ++ [NetCall.extractCall fname]
                      match extract_cpp_function content fname with
                      | none => (acc.1, log3)
                      | some fdef =>
                        (aset acc.1 fname ⟨path, prev_commit, fdef⟩, log3)

/-- Embedding of `process_pr(pr, existing_functions)`
(src/pr_analysis/pr_get_preFunc.py): early exits for a missing
`modified_functions` field, an empty function list, or missing
patches; otherwise the per-function loop over `all`, with the prior
results for this PR consulted before any external work. -/
def process_pr (env : NetEnv) (pr : PRRec)
    (existing : List (Nat × List (Str × Entry))) :
    List (Str × Entry) × List NetCall :=
  match pr.modified_functions with
  | none => ([], [])
  | some mf =>
    if mf.all = [] then ([], [])
    else if pr.patches = [] then ([], [])
    else
      let ffm := function_file_map mf.by_file
      let pr_existing := (nlookup existing pr.number).getD []
      mf.all.foldl (processFunction env pr.patches ffm pr_existing) ([], [])

/-- Embedding of `process_all_prs(pr_data, ...)`: start from a copy of
the prior results, process each PR against the prior results, and store
each nonempty per-PR result under the PR number.  The thread pool is
modelled as a sequential fold: each worker reads only the immutable
prior results and writes only its own PR's key under the result lock,
so the final map does not depend on the schedule; the periodic
checkpoint writes are I/O without effect on the result. -/
def process_all_prs (env : NetEnv) (pr_data : List PRRec)
    (existing : List (Nat × List (Str × Entry))) :
    List (Nat × List (Str × Entry)) × List NetCall :=
  pr_data.foldl
    (fun acc pr =>
      let r := process_pr env pr existing
      (if r.1 = [] then acc.1 else nset acc.1 pr.number r.1, acc.2 ++ r.2))
    (existing, [])

/-- Bool form of the claim hypothesis of the idempotence property:
every (PR number, function name) pair derived from the input records'
`modified_functions.all` lists is already present in the prior
results. -/
def prCovered (existing : List (Nat × List (Str × Entry))) (pr : PRRec) : Bool :=
  match pr.modified_functions with
  | none => true
  | some mf =>
    mf.all.all (fun fn => (alookup ((nlookup existing pr.number).getD []) fn).isSome)

def derivedCovered (pr_data : List PRRec)
    (existing : List (Nat × List (Str × Entry))) : Bool :=
  pr_data.all (prCovered existing)

/-- Auxiliary hypothesis of the amended idempotence claim: for every
input record that reaches the per-function loop, the prior entry for
its PR number has keys only among that record's `all` list. -/
def prRestricted (existing : List (Nat × List (Str × Entry))) (pr : PRRec) : Bool :=
  match pr.modified_functions with
  | none => true
  | some mf =>
    if mf.all = [] then true
    else if pr.patches = [] then true
    else
      match nlookup existing pr.number with
      | none => true
      | some m => m.all (fun kv => mf.all.contains kv.1)

def priorRestricted (pr_data : List PRRec)
    (existing : List (Nat × List (Str × Entry))) : Bool :=
  pr_data.all (prRestricted existing)

/-- Extensional equality of two function-name-keyed entry maps
(Python nested dict equality), decided over the keys of both sides. -/
def entryKeyEq (m1 m2 : List (Str × Entry)) (k : Str) : Bool :=
  match alookup m1 k, alookup m2 k with
  | some v1, some v2 => decide (v1 = v2)
  | none, none => true
  | _, _ => false

def innerEqB (m1 m2 : List (Str × Entry)) : Bool :=
  (m1.map Prod.fst ++ m2.map Prod.fst).all (entryKeyEq m1 m2)

/-- Extensional equality of two PR-number-keyed result stores with
nested extensional equality of the per-PR maps (Python dict equality of
the whole output). -/
def prKeyEq (m1 m2 : List (Nat × List (Str × Entry))) (k : Nat) : Bool :=
  match nlookup m1 k, nlookup m2 k with
  | some v1, some v2 => innerEqB v1 v2
  | none, none => true
  | _, _ => false

def outerEqB (m1 m2 : List (Nat × List (Str × Entry))) : Bool :=
  (m1.map Prod.fst ++ m2.map Prod.fst).all (prKeyEq m1 m2)

/-- Pointwise agreement of two optional per-PR entry maps, the
invariant form of nested dict equality. -/
def entriesAgree (o1 o2 : Option (List (Str × Entry))) : Prop :=
  match o1, o2 with
  | some a, some b => ∀ k, alookup a k = alookup b k
  | none, none => True
  | _, _ => False

/-- The per-PR analysis step of `analyze_json_patches`
(src/pr_analysis/pr_analysis_functionName.py): iterate the `patches`
mapping, skip entries with a missing or empty patch text, and for each
nonempty extraction record the per-file list and merge the names into
the aggregate set.  The result is the written `modified_functions`
value `(all, by_file)`. -/
def analyzeStep (acc : List Str × List (Str × List Str))
    (fp : Str × Option Str) : List Str × List (Str × List Str) :=
  match fp.2 with
  | none => acc
  | some ptext =>
    if ptext = [] then acc
    else if extract_modified_functions ptext = [] then acc
    else ((extract_modified_functions ptext).foldl addName acc.1,
      aset acc.2 fp.1 (extract_modified_functions ptext))

def analyze_pr_patches (patches : List (Str × Option Str)) :
    List Str × List (Str × List Str) :=
  patches.foldl analyzeStep ([], [])

/-- The no-orphans invariant on a `modified_functions` value: every
name in the aggregate list occurs in some per-file list, and every name
in a per-file list occurs in the aggregate list. -/
def mfInvariant (mf : List Str × List (Str × List Str)) : Bool :=
  mf.1.all (fun n => mf.2.any (fun fl => fl.2.contains n)) &&
  mf.2.all (fun fl => fl.2.all (fun n => mf.1.contains n))

/-- Origin predicate for the qualified deleted-line pass. -/
def delQual (line x : Str) : Prop :=
  line.head? = some '-' ∧
    ∃ c f, pass2search (stripStr (line.drop 1)) = some (c, f) ∧ x = c ++ ':' :: ':' :: f

/-- Origin predicate for the standalone (bare-name) deleted-line pass,
including the guards of the code: the stripped line content has no
`::`, and the name is none of the rejected keywords. -/
def delBare (line x : Str) : Prop :=
  line.head? = some '-' ∧
    bareMatchName (stripStr (line.drop 1)) = some x ∧
    hasDCol (stripStr (line.drop 1)) = false ∧ kwList.contains x = false

/-- Concrete inputs for the claims about `extract_modified_functions`. -/
def c5patch : Str := ("@@ -58,8 +58,9 @@ Land::on_activation()".toList)

def landName : Str := ("Land::on_activation".toList)

def c4del : Str := ("- void Foo::bar()".toList)

def c4add : Str := ("+ void Foo::baz()".toList)

def c4patch : Str := ("- void Foo::bar()\n+ void Foo::baz()".toList)

def c4patchWide : Str :=
  (" context line\n- void Foo::bar()\n+ void Foo::baz()\n another".toList)

def fooBarName : Str := ("Foo::bar".toList)

def c6patch : Str := ("- if (x > 0) \x7b".toList)

def c7patch : Str := ("@@ -1,2 +3,4 @@ void foo()".toList)

/-- Some word character immediately followed by an opening parenthesis
occurs in the string. -/
def hasBareParen : Str → Bool
  | [] => false
  | c :: t => (isWordChar c && t.head? = some '(') || hasBareParen t

/-- Follows the claim's words: the patch contains a hunk header line
(prefix `@@ -`) whose context carries a bare function token, an
identifier followed by `(` with no `::` qualifier anywhere in the
line. -/
def hunkHeaderBare (patch : Str) : Bool :=
  (splitNl patch).any (fun l =>
    ("@@ -".toList).isPrefixOf l && !hasDCol l && hasBareParen l)

/-- The no-orphans invariant in propositional form. -/
def mfInv (acc : List Str × List (Str × List Str)) : Prop :=
  (∀ n ∈ acc.1, ∃ fl ∈ acc.2, n ∈ fl.2) ∧ (∀ fl ∈ acc.2, ∀ n ∈ fl.2, n ∈ acc.1)

def c9input : List (Str × Option Str) :=
  [(("rtl.cpp".toList), some c4patch), (("land.cpp".toList), some c5patch)]

/-- Concrete inputs for the claims about the indentation extractor. -/
def c2content : Str :=
  ("def handle(self):\n    do_a()\n\n    do_b()\ndef other():".toList)

def c2expected : Str := ("def handle(self):\n    do_a()\n\n    do_b()".toList)

def c10content : Str := ("def f():\nx()\ny()".toList)

def c8noBrace : Str := ("void foo( x".toList)

def c8unbalanced : Str := ("void foo() \x7b \x7b y();".toList)

/-- Some suffix of the string satisfies the predicate. -/
def anySuffix (p : Str → Bool) : Str → Bool
  | [] => p []
  | u@(_ :: t) => p u || anySuffix p t

/-- Characters that may occur in a function name handled by the claims:
word characters and the qualifier colon. -/
def wordColon (c : Char) : Bool := isWordChar c || c = ':'

/-- The header token itself: the qualified pattern without its optional
declaration prefix for a qualified name, the `NAME\s*\(` token for a
bare name. -/
def coreAt (fname : Str) (u : Str) : Bool :=
  match splitDC fname with
  | some p => cppQualAt p.1 p.2 u
  | none => matchNameParen fname u

/-- The function's header token occurs somewhere in the string. -/
def containsHeaderTok (fname s : Str) : Bool := anySuffix (coreAt fname) s

/-- The region of the content from the start of the header's source
line up to the body's opening brace contains no brace characters.  This
is the formal rendering of the input being a well-formed brace-delimited
definition whose signature carries no stray braces. -/
def signatureBraceFree (content fname : Str) : Bool :=
  match searchIdx (cppHeaderAt fname) content with
  | none => true
  | some start =>
    match findIdxFrom '\x7b' content start with
    | none => true
    | some bs =>
      (sliceStr content (lineStartAt content start) bs).all
        (fun c => !(c = '\x7b' || c = '\x7d'))

/-- Depth scan for well-nestedness of braces: the depth never goes
negative and ends at zero. -/
def braceDepthOk : Str → Int → Bool
  | [], d => d = 0
  | c :: t, d =>
    if c = '\x7b' then braceDepthOk t (d + 1)
    else if c = '\x7d' then decide (0 < d) && braceDepthOk t (d - 1)
    else braceDepthOk t d

def wellNested (u : Str) : Bool := braceDepthOk u 0

/-- The brace depth reaches two somewhere: the input contains nested
braces. -/
def depthReachesTwo : Str → Int → Bool
  | [], _ => false
  | c :: t, d =>
    if c = '\x7b' then decide (2 ≤ d + 1) || depthReachesTwo t (d + 1)
    else if c = '\x7d' then depthReachesTwo t (d - 1)
    else depthReachesTwo t d

def nestedBraces (u : Str) : Bool := depthReachesTwo u 0

/-- The first line of a string. -/
def firstLine (u : Str) : Str := u.takeWhile (fun c => !(c = '\n'))

/-- Substring test. -/
def containsSub (pat : Str) : Str → Bool := anySuffix (fun v => pat.isPrefixOf v)

def c1cex : Str := ("\x7b void\nfoo() \x7b \x7b \x7d \x7d \x7d".toList)

def c1cexOut : Str := ("\x7b void\nfoo() \x7b \x7b \x7d \x7d".toList)

def c1good : Str := ("void\nfoo() \x7b if (x) \x7b y(); \x7d \x7d".toList)

def c3env : NetEnv := ⟨fun _ => none, fun _ _ => none, fun _ => none⟩

def c3f : Str := ("f".toList)

def c3g : Str := ("g".toList)

def c3fp : Str := ("a.cc".toList)

def c3e1 : Entry := ⟨c3fp, ("c1".toList), ("s1".toList)⟩

def c3e2 : Entry := ⟨c3fp, ("c1".toList), ("s2".toList)⟩

def c3pr : List PRRec :=
  [⟨1, some ⟨[c3f], [(c3fp, [c3f])]⟩, [(c3fp, ⟨some ("u".toList)⟩)]⟩]

def c3exist : List (Nat × List (Str × Entry)) :=
  [(1, [(c3f, c3e1), (c3g, c3e2)])]

def c3exist2 : List (Nat × List (Str × Entry)) :=
  [(1, [(c3f, c3e1)])]


theorem contains_iff_mem (s : List Str) (n : Str) : s.contains n = true ↔ n ∈ s :=
  List.elem_iff

theorem mem_addName {s : List Str} {n x : Str} :
    x ∈ addName s n ↔ x ∈ s ∨ x = n := by
  unfold addName
  by_cases h : s.contains n = true
  · rw [if_pos h]
    have hn : n ∈ s := (contains_iff_mem s n).mp h
    constructor
    · exact fun hx => Or.inl hx
    · rintro (hx | rfl)
      · exact hx
      · exact hn
  · rw [if_neg h]
    simp

theorem addName_sub {s : List Str} {n x : Str} (h : x ∈ s) : x ∈ addName s n :=
  mem_addName.mpr (Or.inl h)

theorem self_mem_addName {s : List Str} {n : Str} : n ∈ addName s n :=
  mem_addName.mpr (Or.inr rfl)

theorem foldl_mono {α : Type} (step : List Str → α → List Str)
    (hstep : ∀ acc a, ∀ y ∈ acc, y ∈ step acc a) :
    ∀ (l : List α) (acc : List Str), ∀ x ∈ acc, x ∈ l.foldl step acc := by
  intro l
  induction l with
  | nil => intro acc x hx; exact hx
  | cons a t ih => intro acc x hx; exact ih (step acc a) x (hstep acc a x hx)

theorem foldl_cases {α : Type} (step : List Str → α → List Str)
    (P : α → Str → Prop)
    (hstep : ∀ acc a x, x ∈ step acc a → x ∈ acc ∨ P a x) :
    ∀ (l : List α) (acc : List Str), ∀ x, x ∈ l.foldl step acc →
      x ∈ acc ∨ ∃ a ∈ l, P a x := by
  intro l
  induction l with
  | nil => intro acc x hx; exact Or.inl hx
  | cons a t ih =>
    intro acc x hx
    rcases ih (step acc a) x hx with h | ⟨b, hb, hPb⟩
    · rcases hstep acc a x h with h1 | h2
      · exact Or.inl h1
      · exact Or.inr ⟨a, List.mem_cons_self a t, h2⟩
    · exact Or.inr ⟨b, List.mem_cons_of_mem a hb, hPb⟩

theorem foldl_intro {α : Type} (step : List Str → α → List Str) (x : Str)
    (hmono : ∀ acc a, ∀ y ∈ acc, y ∈ step acc a)
    (a0 : α) (hx : ∀ acc, x ∈ step acc a0) :
    ∀ (l : List α) (acc : List Str), a0 ∈ l → x ∈ l.foldl step acc := by
  intro l
  induction l with
  | nil => intro acc h; exact absurd h (List.not_mem_nil a0)
  | cons a t ih =>
    intro acc h
    rcases List.mem_cons.mp h with rfl | h
    · exact foldl_mono step hmono t (step acc a0) x (hx acc)
    · exact ih (step acc a) h

theorem hasDCol_append (c f : Str) : hasDCol (c ++ ':' :: ':' :: f) = true := by
  induction c with
  | nil => simp [hasDCol]
  | cons ch c' ih =>
    cases c' with
    | nil => simp [hasDCol]
    | cons d c'' =>
      simp only [List.cons_append] at *
      simp [hasDCol, ih]

theorem delQualStep_cases {acc : List Str} {content x : Str}
    (h : x ∈ delQualStep acc content) :
    x ∈ acc ∨ ∃ c f, pass2search content = some (c, f) ∧ x = c ++ ':' :: ':' :: f := by
  unfold delQualStep at h
  split at h
  · rcases mem_addName.mp h with h1 | rfl
    · exact Or.inl h1
    · exact Or.inr ⟨_, _, by assumption, rfl⟩
  · exact Or.inl h

theorem delBareStep_cases {acc : List Str} {content x : Str}
    (h : x ∈ delBareStep acc content) :
    x ∈ acc ∨ (bareMatchName content = some x ∧ hasDCol content = false ∧
      kwList.contains x = false) := by
  unfold delBareStep at h
  split at h
  · split at h
    · rcases mem_addName.mp h with h1 | rfl
      · exact Or.inl h1
      · rename_i f hf hg
        rw [Bool.and_eq_true] at hg
        exact Or.inr ⟨hf, by simpa using hg.1, by simpa using hg.2⟩
    · exact Or.inl h
  · exact Or.inl h

theorem procDelLine_cases {acc : List Str} {line x : Str}
    (h : x ∈ procDelLine acc line) : x ∈ acc ∨ delQual line x ∨ delBare line x := by
  unfold procDelLine at h
  split at h
  · split at h
    · exact Or.inl h
    · rename_i hh _
      rcases delBareStep_cases h with h1 | ⟨hb1, hb2, hb3⟩
      · rcases delQualStep_cases h1 with h2 | ⟨c, f, hq, rfl⟩
        · exact Or.inl h2
        · exact Or.inr (Or.inl ⟨hh, c, f, hq, rfl⟩)
      · exact Or.inr (Or.inr ⟨hh, hb1, hb2, hb3⟩)
  · exact Or.inl h

theorem delQualStep_mono (acc : List Str) (content : Str) :
    ∀ y ∈ acc, y ∈ delQualStep acc content := by
  intro y hy
  unfold delQualStep
  split
  · exact addName_sub hy
  · exact hy

theorem delBareStep_mono (acc : List Str) (content : Str) :
    ∀ y ∈ acc, y ∈ delBareStep acc content := by
  intro y hy
  unfold delBareStep
  split
  · split
    · exact addName_sub hy
    · exact hy
  · exact hy

theorem procDelLine_mono (acc : List Str) (line : Str) :
    ∀ y ∈ acc, y ∈ procDelLine acc line := by
  intro y hy
  unfold procDelLine
  split
  · split
    · exact hy
    · exact delBareStep_mono _ _ y (delQualStep_mono _ _ y hy)
  · exact hy

theorem procRename_cases {acc : List Str} {p : Str × Str} {x : Str}
    (h : x ∈ procRename acc p) :
    x ∈ acc ∨ ∃ c f, x = c ++ ':' :: ':' :: f := by
  unfold procRename at h
  split at h
  · split at h
    · split at h
      · rcases mem_addName.mp h with h1 | rfl
        · exact Or.inl h1
        · exact Or.inr ⟨_, _, rfl⟩
      · exact Or.inl h
    · exact Or.inl h
  · exact Or.inl h

theorem procRename_mono (acc : List Str) (p : Str × Str) :
    ∀ y ∈ acc, y ∈ procRename acc p := by
  intro y hy
  unfold procRename
  split
  · split
    · split
      · exact addName_sub hy
      · exact hy
    · exact hy
  · exact hy

theorem mem_extract_cases {patch x : Str} (h : x ∈ extract_modified_functions patch) :
    (∃ c f, x = c ++ ':' :: ':' :: f) ∨
      ∃ line ∈ splitNl patch, delBare line x := by
  unfold extract_modified_functions at h
  rcases foldl_cases procRename (fun _ y => ∃ c f, y = c ++ ':' :: ':' :: f)
      (fun _ _ _ hm => procRename_cases hm) _ _ _ h with h2 | ⟨_, _, hq⟩
  · rcases foldl_cases procDelLine (fun line y => delQual line y ∨ delBare line y)
        (fun _ _ _ hm => (procDelLine_cases hm).imp_right id) _ _ _ h2 with
      h3 | ⟨line, hline, hq | hb⟩
    · rcases foldl_cases addName (fun a y => y = a) (fun acc a y hm => mem_addName.mp hm)
          _ _ _ h3 with h4 | ⟨a, ha, rfl⟩
      · exact absurd h4 (List.not_mem_nil x)
      · rcases List.mem_map.mp ha with ⟨p, _, rfl⟩
        exact Or.inl ⟨p.1, p.2, rfl⟩
    · exact Or.inl ⟨_, _, hq.2.choose_spec.choose_spec.2⟩
    · exact Or.inr ⟨line, hline, hb⟩
  · exact Or.inl hq

theorem mem_headerPassNames {patch x : Str} (h : x ∈ headerPassNames patch) :
    ∃ c f, x = c ++ ':' :: ':' :: f := by
  rcases List.mem_map.mp h with ⟨p, _, rfl⟩
  exact ⟨p.1, p.2, rfl⟩

theorem pair_mem_zip (a b : Str) (l : List Str) (h : [a, b] <:+: l) :
    (a, b) ∈ l.zip l.tail := by
  rcases h with ⟨s, t, rfl⟩
  induction s with
  | nil =>
    simp only [List.nil_append, List.cons_append, List.tail_cons, List.zip_cons_cons]
    exact List.mem_cons_self _ _
  | cons c s' ih =>
    obtain ⟨r0, rt, hr⟩ : ∃ r0 rt, s' ++ [a, b] ++ t = r0 :: rt := by
      cases s' <;> exact ⟨_, _, rfl⟩
    rw [hr] at ih
    simp only [List.cons_append, hr, List.tail_cons, List.zip_cons_cons]
    exact List.mem_cons_of_mem _ (by simpa using ih)

theorem keyword_not_mem (patch kw : Str) (hkw : kwList.contains kw = true)
    (hnd : hasDCol kw = false) :
    (extract_modified_functions patch).contains kw = false := by
  cases hb : (extract_modified_functions patch).contains kw with
  | false => rfl
  | true =>
    exfalso
    rcases mem_extract_cases ((contains_iff_mem _ _).mp hb) with
      ⟨c, f, rfl⟩ | ⟨line, _, _, _, _, hb4⟩
    · simp [hasDCol_append] at hnd
    · simp at hb4
      exact hb4 ((contains_iff_mem _ _).mp hkw)

theorem procRename_c4_step (acc : List Str) :
    procRename acc (c4del, c4add) = addName acc fooBarName := rfl

/-- C5: for the patch whose only content is the hunk header
`@@ -58,8 +58,9 @@ Land::on_activation()`, with no deleted line
matching a function signature, `extract_modified_functions` returns
exactly the singleton set containing `Land::on_activation`: the
header-context pass alone contributes the qualified name even without a
return type in the header context. -/
theorem C5_header_context_alone :
    extract_modified_functions c5patch = [landName] := by decide

/-- C6: a deleted line `if (x > 0) {` contributes nothing (the patch
consisting of that deleted line yields the empty set), and, for every
patch text, none of the control-flow keywords `if`, `while`, `for`,
`switch` is ever an element of the result of
`extract_modified_functions`. -/
theorem C6_keyword_exclusion :
    extract_modified_functions c6patch = [] ∧
    ∀ patch : Str,
      (extract_modified_functions patch).contains ("if".toList) = false ∧
      (extract_modified_functions patch).contains ("while".toList) = false ∧
      (extract_modified_functions patch).contains ("for".toList) = false ∧
      (extract_modified_functions patch).contains ("switch".toList) = false := by
  refine ⟨by decide, fun patch => ⟨?_, ?_, ?_, ?_⟩⟩
  all_goals exact keyword_not_mem patch _ (by decide) (by decide)

/-- C7 counterexample: the patch `@@ -1,2 +3,4 @@ void foo()` contains
a hunk header whose trailing context carries the bare function token
`foo(`, yet `extract_modified_functions` returns the empty set, so the
bare name `foo` is not added by the header-context pass (the header
regex requires a `Class::method` form). -/
theorem C7_counterexample :
    hunkHeaderBare c7patch = true ∧
    extract_modified_functions c7patch = [] ∧
    (extract_modified_functions c7patch).contains ("foo".toList) = false := by
  refine ⟨by decide, by decide, by decide⟩

/-- C7 amended: the header-context pass contributes only class-qualified
names; every name it adds contains the `::` separator, so a hunk header
whose context ends in a bare `name(` token contributes nothing. -/
theorem C7_header_pass_qualified_only (patch : Str) :
    (headerPassNames patch).all hasDCol = true := by
  rw [List.all_eq_true]
  intro x hx
  rcases mem_headerPassNames hx with ⟨c, f, rfl⟩
  exact hasDCol_append c f

/-- C4: for the hunk deleting `void Foo::bar()` and adding
`void Foo::baz()`, the result is exactly the singleton `Foo::bar`
(hence contains neither bare `bar` nor bare `baz`); for any patch
containing that adjacent deleted/added pair, `Foo::bar` is in the
result; and in general every name without a `::` separator in any
result originates from the standalone pass on a deleted line that
itself contains no `::`, so a deleted line containing `::` never
contributes a bare name. -/
theorem C4_rename_pre_image :
    extract_modified_functions c4patch = [fooBarName] ∧
    (∀ patch : Str, [c4del, c4add] <:+: splitNl patch →
      fooBarName ∈ extract_modified_functions patch) ∧
    (∀ patch x : Str, x ∈ extract_modified_functions patch → hasDCol x = false →
      ∃ line ∈ splitNl patch, delBare line x) := by
  refine ⟨by decide, ?_, ?_⟩
  · intro patch hinf
    have hz := pair_mem_zip c4del c4add (splitNl patch) hinf
    unfold extract_modified_functions
    exact foldl_intro procRename fooBarName procRename_mono (c4del, c4add)
      (fun acc => procRename_c4_step acc ▸ self_mem_addName) _ _ hz
  · intro patch x hx hnd
    rcases mem_extract_cases hx with ⟨c, f, rfl⟩ | h
    · simp [hasDCol_append] at hnd
    · exact h

/-- C4 witness: the adjacent pair inside a larger patch, via the second
conjunct of the theorem. -/
theorem C4_witness : fooBarName ∈ extract_modified_functions c4patchWide :=
  C4_rename_pre_image.2.1 c4patchWide (by decide)

theorem mem_foldl_addName (l : List Str) :
    ∀ (acc : List Str) (x : Str), x ∈ l.foldl addName acc ↔ x ∈ acc ∨ x ∈ l := by
  induction l with
  | nil => intro acc x; simp
  | cons a t ih =>
    intro acc x
    rw [List.foldl_cons, ih]
    rw [mem_addName]
    constructor
    · rintro ((h | rfl) | h)
      · exact Or.inl h
      · exact Or.inr (List.mem_cons_self _ _)
      · exact Or.inr (List.mem_cons_of_mem _ h)
    · rintro (h | h)
      · exact Or.inl (Or.inl h)
      · rcases List.mem_cons.mp h with rfl | h
        · exact Or.inl (Or.inr rfl)
        · exact Or.inr h

theorem aset_fresh {β : Type} (m : List (Str × β)) (k : Str) (v : β)
    (h : k ∉ m.map Prod.fst) : aset m k v = m ++ [(k, v)] := by
  induction m with
  | nil => rfl
  | cons p t ih =>
    simp only [List.map_cons, List.mem_cons] at h
    push_neg at h
    unfold aset
    rw [if_neg (fun he => h.1 he.symm), ih h.2]
    rfl

theorem analyzeStep_inv (acc : List Str × List (Str × List Str))
    (fp : Str × Option Str) (hfresh : fp.1 ∉ acc.2.map Prod.fst)
    (hinv : mfInv acc) :
    mfInv (analyzeStep acc fp) ∧
      ∀ k ∈ (analyzeStep acc fp).2.map Prod.fst,
        k ∈ acc.2.map Prod.fst ∨ k = fp.1 := by
  unfold analyzeStep
  rcases fp with ⟨fname, po⟩
  rcases po with _ | ptext
  · exact ⟨hinv, fun k hk => Or.inl hk⟩
  · dsimp only
    by_cases h1 : ptext = []
    · rw [if_pos h1]; exact ⟨hinv, fun k hk => Or.inl hk⟩
    · rw [if_neg h1]
      by_cases h2 : extract_modified_functions ptext = []
      · rw [if_pos h2]; exact ⟨hinv, fun k hk => Or.inl hk⟩
      · rw [if_neg h2]
        dsimp only at hfresh ⊢
        rw [aset_fresh _ _ _ hfresh]
        refine ⟨⟨?_, ?_⟩, ?_⟩
        · intro n hn
          rcases (mem_foldl_addName _ _ _).mp hn with h | h
          · rcases hinv.1 n h with ⟨fl, hfl, hnf⟩
            exact ⟨fl, List.mem_append_left _ hfl, hnf⟩
          · exact ⟨(fname, extract_modified_functions ptext),
              List.mem_append_right _ (List.mem_singleton.mpr rfl), h⟩
        · intro fl hfl n hn
          rcases List.mem_append.mp hfl with h | h
          · exact (mem_foldl_addName _ _ _).mpr (Or.inl (hinv.2 fl h n hn))
          · rw [List.mem_singleton.mp h] at hn
            exact (mem_foldl_addName _ _ _).mpr (Or.inr hn)
        · intro k hk
          rw [List.map_append, List.mem_append] at hk
          rcases hk with h | h
          · exact Or.inl h
          · simp at h
            exact Or.inr h

theorem analyze_aux :
    ∀ (ps : List (Str × Option Str)) (acc : List Str × List (Str × List Str)),
      (ps.map Prod.fst).Nodup →
      (∀ k ∈ acc.2.map Prod.fst, k ∉ ps.map Prod.fst) →
      mfInv acc → mfInv (ps.foldl analyzeStep acc) := by
  intro ps
  induction ps with
  | nil => intro acc _ _ h; exact h
  | cons fp t ih =>
    intro acc hnd hfresh hinv
    rw [List.foldl_cons]
    rw [List.map_cons, List.nodup_cons] at hnd
    have hffp : fp.1 ∉ acc.2.map Prod.fst := by
      intro hmem
      exact hfresh fp.1 hmem (List.mem_cons_self _ _)
    have hstep := analyzeStep_inv acc fp hffp hinv
    apply ih _ hnd.2 _ hstep.1
    intro k hk
    rcases hstep.2 k hk with h | rfl
    · intro hkt
      exact hfresh k h (List.mem_cons_of_mem _ hkt)
    · exact hnd.1

/-- C9: for every PR record (a `patches` mapping with unique file
names, as a Python dict provides), the `modified_functions` value that
`analyze_json_patches` computes satisfies the no-orphans invariant in
both directions: every name in a by-file list is in the aggregate list,
and every name in the aggregate list occurs in some by-file list. -/
theorem C9_no_orphans (patches : List (Str × Option Str))
    (hnd : (patches.map Prod.fst).Nodup) :
    mfInvariant (analyze_pr_patches patches) = true := by
  have hinv := analyze_aux patches ([], []) hnd (by simp) ⟨by simp, by simp⟩
  unfold mfInvariant
  rw [Bool.and_eq_true]
  constructor
  · rw [List.all_eq_true]
    intro n hn
    rcases hinv.1 n hn with ⟨fl, hfl, hnf⟩
    rw [List.any_eq_true]
    exact ⟨fl, hfl, (contains_iff_mem _ _).mpr hnf⟩
  · rw [List.all_eq_true]
    intro fl hfl
    rw [List.all_eq_true]
    intro n hn
    exact (contains_iff_mem _ _).mpr (hinv.2 fl hfl n hn)

/-- C9 witness: the invariant holds on a concrete two-file record. -/
theorem C9_witness : mfInvariant (analyze_pr_patches c9input) = true :=
  C9_no_orphans c9input (by decide)

theorem collectLoop_true (base : Nat) :
    ∀ ls : List Str, collectLoop base true ls = specIndentCollect base ls := by
  intro ls
  induction ls with
  | nil => rfl
  | cons l t ih =>
    unfold collectLoop specIndentCollect
    by_cases h1 : l.all isPyWs = true
    · rw [if_pos h1, if_pos h1, ih]
    · rw [if_neg h1, if_neg h1]
      by_cases h2 : (l.takeWhile isPyWs).length ≤ base
      · rw [if_pos (by simp [h2]), if_pos h2]
      · rw [if_neg (by simp [h2]), if_neg h2, ih]

/-- C2: whenever `find_function_in_file` locates the def header and the
first line after the header is blank or indented deeper than the
baseline (as in any Python-like input, where a body is indented), the
returned text is exactly the header line followed by the lines that the
spec's collection rule selects: all subsequent lines verbatim, blank
lines included, up to but excluding the first non-blank line whose
leading-whitespace length is at most the baseline.  A blank line never
terminates the collection. -/
theorem C2_indent_extraction (content name : Str) (sp : Nat)
    (hs : defSearchIdx name content = some sp)
    (hf : firstBodyOk content sp = true) :
    find_function_in_file content name =
      some (joinNl (defLineOf content sp ::
        specIndentCollect (defBaseOf content sp) (defBodyLines content sp))) := by
  unfold find_function_in_file
  rw [hs]
  have hcoll : collectLoop (defBaseOf content sp) false (defBodyLines content sp) =
      specIndentCollect (defBaseOf content sp) (defBodyLines content sp) := by
    unfold firstBodyOk at hf
    cases hb : defBodyLines content sp with
    | nil => rfl
    | cons l t =>
      rw [hb] at hf
      unfold collectLoop specIndentCollect
      by_cases h1 : l.all isPyWs = true
      · rw [if_pos h1, if_pos h1, collectLoop_true]
      · rw [Bool.or_eq_true] at hf
        rcases hf with hf | hf
        · exact absurd hf h1
        · have h2 : ¬ (l.takeWhile isPyWs).length ≤ defBaseOf content sp := by
            rw [decide_eq_true_eq] at hf
            omega
          rw [if_neg h1, if_neg h1, if_neg (by simp [h2]), if_neg h2, collectLoop_true]
  show some (joinNl (defLineOf content sp ::
      collectLoop (defBaseOf content sp) false (defBodyLines content sp))) = _
  rw [hcoll]

theorem noNl_splitNl : ∀ s l : Str, l ∈ splitNl s → '\n' ∉ l := by
  intro s
  induction s with
  | nil =>
    intro l hl
    rcases List.mem_singleton.mp hl with rfl
    simp
  | cons c t ih =>
    intro l hl
    unfold splitNl at hl
    by_cases hc : c = '\n'
    · rw [if_pos hc] at hl
      rcases List.mem_cons.mp hl with rfl | h
      · simp
      · exact ih l h
    · rw [if_neg hc] at hl
      cases hsp : splitNl t with
      | nil =>
        rw [hsp] at hl
        rcases List.mem_singleton.mp hl with rfl
        intro hm
        rcases List.mem_singleton.mp hm with rfl
        exact hc rfl
      | cons h0 r =>
        rw [hsp] at hl
        rcases List.mem_cons.mp hl with rfl | h
        · intro hmem
          rcases List.mem_cons.mp hmem with he | hmem2
          · exact hc he.symm
          · exact ih h0 (hsp ▸ List.mem_cons_self _ _) hmem2
        · exact ih l (hsp ▸ List.mem_cons_of_mem _ h)

theorem splitNl_single : ∀ l : Str, '\n' ∉ l → splitNl l = [l] := by
  intro l
  induction l with
  | nil => intro _; rfl
  | cons c t ih =>
    intro h
    have hc : ¬ c = '\n' := fun he => h (he ▸ List.mem_cons_self _ _)
    have ht : '\n' ∉ t := fun hm => h (List.mem_cons_of_mem _ hm)
    unfold splitNl
    rw [if_neg hc, ih ht]

theorem splitNl_append : ∀ l t : Str, '\n' ∉ l →
    splitNl (l ++ '\n' :: t) = l :: splitNl t := by
  intro l
  induction l with
  | nil => intro t _; simp [splitNl]
  | cons c l' ih =>
    intro t h
    have hc : ¬ c = '\n' := fun he => h (he ▸ List.mem_cons_self _ _)
    have hl' : '\n' ∉ l' := fun hm => h (List.mem_cons_of_mem _ hm)
    show splitNl (c :: (l' ++ '\n' :: t)) = (c :: l') :: splitNl t
    conv_lhs => rw [splitNl]
    rw [if_neg hc, ih t hl']

theorem splitNl_joinNl : ∀ ls : List Str, ls ≠ [] → (∀ l ∈ ls, '\n' ∉ l) →
    splitNl (joinNl ls) = ls := by
  intro ls
  induction ls with
  | nil => intro h; exact absurd rfl h
  | cons l ls' ih =>
    intro _ hnl
    cases ls' with
    | nil => exact splitNl_single l (hnl l (List.mem_cons_self _ _))
    | cons m r =>
      show splitNl (l ++ '\n' :: joinNl (m :: r)) = l :: m :: r
      rw [splitNl_append l _ (hnl l (List.mem_cons_self _ _))]
      rw [ih (by simp) (fun x hx => hnl x (List.mem_cons_of_mem _ hx))]

theorem collectLoop_sub (base : Nat) :
    ∀ (ls : List Str) (b : Bool) (x : Str), x ∈ collectLoop base b ls → x ∈ ls := by
  intro ls
  induction ls with
  | nil => intro b x hx; exact absurd hx (List.not_mem_nil x)
  | cons l t ih =>
    intro b x hx
    unfold collectLoop at hx
    by_cases h1 : l.all isPyWs = true
    · rw [if_pos h1] at hx
      rcases List.mem_cons.mp hx with rfl | h
      · exact List.mem_cons_self _ _
      · exact List.mem_cons_of_mem _ (ih true x h)
    · rw [if_neg h1] at hx
      by_cases h2 : (decide ((l.takeWhile isPyWs).length ≤ base) && b) = true
      · rw [if_pos h2] at hx
        exact absurd hx (List.not_mem_nil x)
      · rw [if_neg h2] at hx
        rcases List.mem_cons.mp hx with rfl | h
        · exact List.mem_cons_self _ _
        · exact List.mem_cons_of_mem _ (ih true x h)

theorem getD_of_drop {α : Type} (d : α) :
    ∀ (n : Nat) (l : List α) (x : α) (xs : List α), l.drop n = x :: xs →
      l.getD n d = x := by
  intro n
  induction n with
  | zero => intro l x xs h; rw [List.drop_zero] at h; rw [h]; rfl
  | succ m ih =>
    intro l x xs h
    cases l with
    | nil => simp at h
    | cons a t => exact ih t x xs h

theorem noNl_getD (s : Str) (i : Nat) : '\n' ∉ (splitNl s).getD i [] := by
  by_cases h : i < (splitNl s).length
  · rw [List.getD_eq_getElem _ _ h]
    exact noNl_splitNl s _ (List.getElem_mem _)
  · rw [List.getD_eq_default _ _ (by omega)]
    simp

/-- C10: whenever `find_function_in_file` locates the def header and
any line follows the header line, the first two lines of the returned
text are the header line and the line immediately after it, with no
condition on that line's blankness or indentation: the indent-based
termination check requires `current_line > start_line + 1`, so the line
immediately after the header is always collected. -/
theorem C10_first_body_line_kept (content name : Str) (sp : Nat)
    (hs : defSearchIdx name content = some sp)
    (hlen : defStartLine content sp + 1 < (splitNl content).length) :
    (find_function_in_file content name).map (fun r => (splitNl r).take 2) =
      some [defLineOf content sp,
        (splitNl content).getD (defStartLine content sp + 1) []] := by
  unfold find_function_in_file
  rw [hs]
  obtain ⟨l1, rest, hb⟩ : ∃ l1 rest, defBodyLines content sp = l1 :: rest := by
    cases hd : defBodyLines content sp with
    | nil =>
      exfalso
      unfold defBodyLines at hd
      rw [List.drop_eq_nil_iff] at hd
      omega
    | cons a b => exact ⟨a, b, rfl⟩
  have hl1 : (splitNl content).getD (defStartLine content sp + 1) [] = l1 :=
    getD_of_drop [] _ _ l1 rest hb
  have hc : collectLoop (defBaseOf content sp) false (l1 :: rest) =
      l1 :: collectLoop (defBaseOf content sp) true rest := by
    conv_lhs => rw [collectLoop]
    by_cases h1 : l1.all isPyWs = true
    · rw [if_pos h1]
    · rw [if_neg h1, if_neg (by simp)]
  have hsub : ∀ x ∈ collectLoop (defBaseOf content sp) true rest,
      x ∈ splitNl content := by
    intro x hx
    have h1 : x ∈ rest := collectLoop_sub _ rest true x hx
    have h2 : x ∈ defBodyLines content sp := hb ▸ List.mem_cons_of_mem _ h1
    exact List.drop_subset _ _ h2
  have hl1mem : l1 ∈ splitNl content :=
    List.drop_subset _ _ (hb ▸ List.mem_cons_self l1 rest)
  have hnl : ∀ l ∈ defLineOf content sp :: l1 ::
      collectLoop (defBaseOf content sp) true rest, '\n' ∉ l := by
    intro l hl
    rcases List.mem_cons.mp hl with rfl | hl
    · exact noNl_getD content _
    · rcases List.mem_cons.mp hl with rfl | hl
      · exact noNl_splitNl content _ hl1mem
      · exact noNl_splitNl content _ (hsub l hl)
  show Option.map (fun r => (splitNl r).take 2)
      (some (joinNl (defLineOf content sp ::
        collectLoop (defBaseOf content sp) false (defBodyLines content sp)))) = _
  rw [hb, hc, Option.map_some', splitNl_joinNl _ (by simp) hnl, hl1]
  rfl

/-- C2 witness: on the spec's concrete scenario the extractor returns
exactly the four lines through `do_b()`, excluding `def other():`. -/
theorem C2_witness : find_function_in_file c2content ("handle".toList) =
    some c2expected := by
  have h := C2_indent_extraction c2content ("handle".toList) 0 (by decide) (by decide)
  rw [h]
  decide

/-- C10 witness: with a non-blank zero-indent line right after the
header, that line is still the second line of the result. -/
theorem C10_witness :
    (find_function_in_file c10content ("f".toList)).map
        (fun r => (splitNl r).take 2) =
      some [("def f():".toList), ("x()".toList)] := by
  have h := C10_first_body_line_kept c10content ("f".toList) 0 (by decide) (by decide)
  rw [h]
  decide

/-- C8: when the header of the named function is located but either no
opening brace occurs at or after the header position, or the brace
depth counter started at that brace never returns to zero before the
end of the content, `extract_cpp_function` returns `none`; being a
total function, the embedding also shows no exception escapes. -/
theorem C8_malformed_returns_none (content fname : Str) (start : Nat)
    (hs : searchIdx (cppHeaderAt fname) content = some start)
    (hbad : ∀ bs, findIdxFrom '\x7b' content start = some bs →
      braceClose (content.drop bs) 0 = none) :
    extract_cpp_function content fname = none := by
  unfold extract_cpp_function
  by_cases hc : content = []
  · rw [if_pos hc]
  · rw [if_neg hc, hs]
    show (match findIdxFrom '\x7b' content start with
      | none => none
      | some bs =>
        match braceClose (content.drop bs) 0 with
        | none => none
        | some off =>
          some (stripStr (sliceStr content (lineStartAt content start)
            (bs + off + 1)))) = none
    cases hf : findIdxFrom '\x7b' content start with
    | none => rfl
    | some bs =>
      show (match braceClose (content.drop bs) 0 with
        | none => none
        | some off =>
          some (stripStr (sliceStr content (lineStartAt content start)
            (bs + off + 1)))) = none
      rw [hbad bs hf]

/-- C8 witness: a header with no opening brace, and a header whose body
never closes, both yield `none`. -/
theorem C8_witness :
    extract_cpp_function c8noBrace ("foo".toList) = none ∧
    extract_cpp_function c8unbalanced ("foo".toList) = none := by
  constructor
  · exact C8_malformed_returns_none c8noBrace ("foo".toList) 0 (by decide)
      (fun bs h => by
        rw [(by decide : findIdxFrom '\x7b' c8noBrace 0 = none)] at h
        cases h)
  · exact C8_malformed_returns_none c8unbalanced ("foo".toList) 0 (by decide)
      (fun bs h => by
        rw [(by decide : findIdxFrom '\x7b' c8unbalanced 0 = some 11)] at h
        cases h
        decide)

theorem searchIdxAux_spec (p : Str → Bool) :
    ∀ (u : Str) (i j : Nat), searchIdxAux p i u = some j →
      i ≤ j ∧ j - i ≤ u.length ∧ p (u.drop (j - i)) = true ∧
        ∀ d, d < j - i → p (u.drop d) = false := by
  intro u
  induction u with
  | nil =>
    intro i j h
    unfold searchIdxAux at h
    by_cases hp : p [] = true
    · rw [if_pos hp] at h
      cases h
      exact ⟨Nat.le_refl _, by simp, by simpa using hp, fun d hd => by omega⟩
    · rw [if_neg hp] at h
      cases h
  | cons c t ih =>
    intro i j h
    unfold searchIdxAux at h
    by_cases hp : p (c :: t) = true
    · rw [if_pos hp] at h
      cases h
      exact ⟨Nat.le_refl _, by simp, by simpa using hp, fun d hd => by omega⟩
    · rw [if_neg hp] at h
      obtain ⟨h1, h2, h3, h4⟩ := ih (i + 1) j h
      have hji : j - i = (j - (i + 1)) + 1 := by omega
      refine ⟨by omega, by simp; omega, ?_, ?_⟩
      · rw [hji, List.drop_succ_cons]
        exact h3
      · intro d hd
        cases d with
        | zero => simpa using hp
        | succ d' =>
          rw [List.drop_succ_cons]
          exact h4 d' (by omega)

theorem searchIdx_spec (p : Str → Bool) (u : Str) (start : Nat)
    (h : searchIdx p u = some start) :
    start ≤ u.length ∧ p (u.drop start) = true := by
  obtain ⟨_, h2, h3, _⟩ := searchIdxAux_spec p u 0 start h
  simpa using ⟨h2, h3⟩

theorem findIdxFrom_spec (c : Char) (u : Str) (start bs : Nat)
    (h : findIdxFrom c u start = some bs) :
    start ≤ bs ∧ (u.drop bs).head? = some c ∧
      ∀ j, start ≤ j → j < bs → ¬ (u.drop j).head? = some c := by
  obtain ⟨h1, h2, h3, h4⟩ := searchIdxAux_spec _ (u.drop start) start bs h
  refine ⟨h1, ?_, ?_⟩
  · have : (u.drop start).drop (bs - start) = u.drop bs := by
      rw [List.drop_drop]
      congr 1
      omega
    rw [this] at h3
    exact of_decide_eq_true h3
  · intro j hj1 hj2 hcon
    have hd : (u.drop start).drop (j - start) = u.drop j := by
      rw [List.drop_drop]
      congr 1
      omega
    have := h4 (j - start) (by omega)
    rw [hd] at this
    rw [decide_eq_false_iff_not] at this
    exact this hcon

theorem braceClose_last :
    ∀ (u : Str) (cnt : Int) (off : Nat), braceClose u cnt = some off →
      off < u.length ∧ (u.drop off).head? = some '\x7d' := by
  intro u
  induction u with
  | nil => intro cnt off h; cases h
  | cons c t ih =>
    intro cnt off h
    unfold braceClose at h
    by_cases h1 : c = '\x7b'
    · rw [if_pos h1] at h
      cases ho : braceClose t (cnt + 1) with
      | none => rw [ho] at h; cases h
      | some o =>
        rw [ho] at h
        cases h
        obtain ⟨hl, hh⟩ := ih (cnt + 1) o ho
        exact ⟨by simpa using Nat.succ_lt_succ hl, by rwa [List.drop_succ_cons]⟩
    · rw [if_neg h1] at h
      by_cases h2 : c = '\x7d'
      · rw [if_pos h2] at h
        by_cases h3 : cnt - 1 = 0
        · rw [if_pos h3] at h
          cases h
          exact ⟨by simp, by simp [h2]⟩
        · rw [if_neg h3] at h
          cases ho : braceClose t (cnt - 1) with
          | none => rw [ho] at h; cases h
          | some o =>
            rw [ho] at h
            cases h
            obtain ⟨hl, hh⟩ := ih (cnt - 1) o ho
            exact ⟨by simpa using Nat.succ_lt_succ hl, by rwa [List.drop_succ_cons]⟩
      · rw [if_neg h2] at h
        cases ho : braceClose t cnt with
        | none => rw [ho] at h; cases h
        | some o =>
          rw [ho] at h
          cases h
          obtain ⟨hl, hh⟩ := ih cnt o ho
          exact ⟨by simpa using Nat.succ_lt_succ hl, by rwa [List.drop_succ_cons]⟩

theorem braceClose_balance :
    ∀ (u : Str) (cnt : Int) (off : Nat), braceClose u cnt = some off →
      ((u.take (off + 1)).count '\x7b' : Int) + cnt =
        ((u.take (off + 1)).count '\x7d' : Int) := by
  intro u
  induction u with
  | nil => intro cnt off h; cases h
  | cons c t ih =>
    intro cnt off h
    unfold braceClose at h
    by_cases h1 : c = '\x7b'
    · rw [if_pos h1] at h
      cases ho : braceClose t (cnt + 1) with
      | none => rw [ho] at h; cases h
      | some o =>
        rw [ho] at h
        cases h
        have hrec := ih (cnt + 1) o ho
        subst h1
        simp only [List.take_succ_cons, List.count_cons]
        simp
        push_cast at hrec
        omega
    · rw [if_neg h1] at h
      by_cases h2 : c = '\x7d'
      · rw [if_pos h2] at h
        by_cases h3 : cnt - 1 = 0
        · rw [if_pos h3] at h
          cases h
          subst h2
          simp only [List.take_succ_cons, List.take_zero, List.count_cons,
            List.count_nil]
          simp
          omega
        · rw [if_neg h3] at h
          cases ho : braceClose t (cnt - 1) with
          | none => rw [ho] at h; cases h
          | some o =>
            rw [ho] at h
            cases h
            have hrec := ih (cnt - 1) o ho
            subst h2
            simp only [List.take_succ_cons, List.count_cons]
            simp
            push_cast at hrec
            omega
      · rw [if_neg h2] at h
        cases ho : braceClose t cnt with
        | none => rw [ho] at h; cases h
        | some o =>
          rw [ho] at h
          cases h
          have hrec := ih cnt o ho
          simp only [List.take_succ_cons, List.count_cons]
          simp [h1, h2]
          push_cast at hrec
          omega

theorem lsAux_le : ∀ (l : Str) (i best : Nat), best ≤ i → lsAux l i best ≤ i + l.length := by
  intro l
  induction l with
  | nil => intro i best h; simpa using h
  | cons c t ih =>
    intro i best h
    unfold lsAux
    have h2 : (if c = '\n' then i + 1 else best) ≤ i + 1 := by
      split
      · exact Nat.le_refl _
      · omega
    have := ih (i + 1) _ h2
    simpa [Nat.add_comm, Nat.add_assoc, Nat.add_left_comm] using this

theorem lineStartAt_le (u : Str) (start : Nat) : lineStartAt u start ≤ start := by
  have h := lsAux_le (u.take start) 0 0 (Nat.le_refl 0)
  have h2 : (u.take start).length ≤ start := by
    simp
  unfold lineStartAt
  omega

theorem dropWhile_eq_drop (p : Char → Bool) :
    ∀ l : Str, l.dropWhile p = l.drop (l.takeWhile p).length := by
  intro l
  induction l with
  | nil => rfl
  | cons c t ih =>
    by_cases h : p c = true
    · simp [List.dropWhile_cons, List.takeWhile_cons, h, ih]
    · simp [List.dropWhile_cons, List.takeWhile_cons, h]

theorem count_dropWhile (p : Char → Bool) (a : Char) (ha : p a = false) :
    ∀ l : Str, (l.dropWhile p).count a = l.count a := by
  intro l
  induction l with
  | nil => rfl
  | cons c t ih =>
    by_cases h : p c = true
    · have hca : ¬ (c = a) := fun he => by rw [he] at h; rw [h] at ha; cases ha
      rw [List.dropWhile_cons, if_pos h, ih, List.count_cons, if_neg (by simpa using hca)]
      omega
    · rw [List.dropWhile_cons, if_neg h]

theorem takeWhile_all (p : Char → Bool) :
    ∀ l : Str, ∀ c ∈ l.takeWhile p, p c = true := by
  intro l c hc
  exact List.mem_takeWhile_imp hc

theorem dropWhile_all_append (p : Char → Bool) (a : Char) (r : Str) (ha : p a = false) :
    ∀ w : Str, (∀ c ∈ w, p c = true) → (w ++ a :: r).dropWhile p = a :: r := by
  intro w
  induction w with
  | nil => intro _; simp [List.dropWhile_cons, ha]
  | cons c t ih =>
    intro h
    rw [List.cons_append, List.dropWhile_cons, if_pos (h c (List.mem_cons_self _ _))]
    exact ih (fun x hx => h x (List.mem_cons_of_mem _ hx))

theorem anySuffix_of_drop (p : Str → Bool) :
    ∀ (l : Str) (k : Nat), p (l.drop k) = true → anySuffix p l = true := by
  intro l
  induction l with
  | nil =>
    intro k h
    rw [List.drop_nil] at h
    simpa [anySuffix] using h
  | cons c t ih =>
    intro k h
    cases k with
    | zero =>
      rw [List.drop_zero] at h
      unfold anySuffix
      rw [h, Bool.true_or]
    | succ k' =>
      rw [List.drop_succ_cons] at h
      unfold anySuffix
      rw [ih k' h, Bool.or_true]

theorem isPyWs_cases (c : Char) (h : isPyWs c = true) :
    c = ' ' ∨ c = '\t' ∨ c = '\n' ∨ c = '\r' ∨ c = '\x0b' ∨ c = '\x0c' := by
  simp only [isPyWs, Bool.or_eq_true, decide_eq_true_eq] at h
  tauto

theorem wordColon_not_ws (c : Char) (h : wordColon c = true) : isPyWs c = false := by
  cases hw : isPyWs c
  · rfl
  · rcases isPyWs_cases c hw with rfl | rfl | rfl | rfl | rfl | rfl <;>
      exact absurd h (by decide)

theorem wordColon_not_brace (c : Char) (h : wordColon c = true) :
    ¬ (c = '\x7b' ∨ c = '\x7d') := by
  rintro (rfl | rfl) <;> exact absurd h (by decide)

theorem isPyWs_not_brace (c : Char) (h : isPyWs c = true) :
    ¬ (c = '\x7b' ∨ c = '\x7d') := by
  rintro (rfl | rfl) <;> exact absurd h (by decide)

theorem cppPrefixChar_not_brace (c : Char) (h : cppPrefixChar c = true) :
    ¬ (c = '\x7b' ∨ c = '\x7d') := by
  rintro (rfl | rfl) <;> exact absurd h (by decide)

theorem splitDC_eq : ∀ (fname : Str) (p : Str × Str), splitDC fname = some p →
    fname = p.1 ++ ':' :: ':' :: p.2 := by
  intro fname
  induction fname with
  | nil => intro p h; cases h
  | cons c rest ih =>
    intro p h
    unfold splitDC at h
    by_cases hc : (c = ':' && rest.head? = some ':') = true
    · rw [if_pos hc] at h
      cases h
      rw [Bool.and_eq_true, decide_eq_true_eq, decide_eq_true_eq] at hc
      obtain ⟨rfl, hh⟩ := hc
      cases rest with
      | nil => cases hh
      | cons r0 rt =>
        simp only [List.head?_cons, Option.some.injEq] at hh
        subst hh
        rfl
    · rw [if_neg hc] at h
      cases hsp : splitDC rest with
      | none => rw [hsp] at h; cases h
      | some q =>
        rw [hsp] at h
        cases h
        have := ih q hsp
        simp [this]

theorem dropLit_spec (lit u v : Str) (h : dropLit lit u = some v) : u = lit ++ v := by
  unfold dropLit at h
  split at h
  · cases h
    rename_i hp
    obtain ⟨t, ht⟩ := List.isPrefixOf_iff_prefix.mp hp
    rw [← ht, List.drop_left]
  · cases h

theorem dropLit_construct (lit v : Str) : dropLit lit (lit ++ v) = some v := by
  unfold dropLit
  rw [if_pos (List.isPrefixOf_iff_prefix.mpr ⟨v, rfl⟩), List.drop_left]

theorem matchNameParen_decomp (name u : Str) (h : matchNameParen name u = true) :
    ∃ w rest, u = name ++ w ++ '(' :: rest ∧ ∀ c ∈ w, isPyWs c = true := by
  unfold matchNameParen at h
  rw [Bool.and_eq_true] at h
  obtain ⟨h1, h2⟩ := h
  obtain ⟨u1, hu1⟩ := List.isPrefixOf_iff_prefix.mp h1
  have hd : u.drop name.length = u1 := by rw [← hu1, List.drop_left]
  rw [hd, decide_eq_true_eq] at h2
  cases hdw : u1.dropWhile isPyWs with
  | nil => rw [hdw] at h2; cases h2
  | cons a r =>
    rw [hdw] at h2
    simp only [List.head?_cons, Option.some.injEq] at h2
    subst h2
    have hsplit : u1 = u1.takeWhile isPyWs ++ '(' :: r := by
      conv_lhs => rw [← List.takeWhile_append_dropWhile isPyWs u1]
      rw [hdw]
    refine ⟨u1.takeWhile isPyWs, r, ?_, takeWhile_all _ _⟩
    rw [← hu1]
    conv_lhs => rw [hsplit]
    simp

theorem matchNameParen_construct (name w rest : Str)
    (hw : ∀ c ∈ w, isPyWs c = true) :
    matchNameParen name (name ++ w ++ '(' :: rest) = true := by
  unfold matchNameParen
  rw [Bool.and_eq_true]
  constructor
  · exact List.isPrefixOf_iff_prefix.mpr ⟨w ++ '(' :: rest, by simp⟩
  · have hd : (name ++ w ++ '(' :: rest).drop name.length = w ++ '(' :: rest := by
      rw [List.append_assoc, List.drop_left]
    rw [hd, dropWhile_all_append isPyWs '(' rest (by decide) w hw]
    simp

theorem cppQualAt_decomp (cls meth u : Str) (h : cppQualAt cls meth u = true) :
    ∃ w1 w2 rest, u = cls ++ ':' :: ':' :: (w1 ++ meth ++ w2 ++ '(' :: rest) ∧
      (∀ c ∈ w1, isPyWs c = true) ∧ (∀ c ∈ w2, isPyWs c = true) := by
  unfold cppQualAt at h
  cases h1 : dropLit (cls ++ [':', ':']) u with
  | none => rw [h1] at h; cases h
  | some u1 =>
    rw [h1] at h
    replace h : (match dropLit meth (u1.dropWhile isPyWs) with
      | none => false
      | some u3 => decide ((u3.dropWhile isPyWs).head? = some '(')) = true := h
    have hu := dropLit_spec _ _ _ h1
    cases h2 : dropLit meth (u1.dropWhile isPyWs) with
    | none => rw [h2] at h; cases h
    | some u3 =>
      rw [h2] at h
      replace h : decide ((u3.dropWhile isPyWs).head? = some '(') = true := h
      have hu2 := dropLit_spec _ _ _ h2
      rw [decide_eq_true_eq] at h
      cases hdw : u3.dropWhile isPyWs with
      | nil => rw [hdw] at h; cases h
      | cons a r =>
        rw [hdw] at h
        simp only [List.head?_cons, Option.some.injEq] at h
        subst h
        have hu3 : u3 = u3.takeWhile isPyWs ++ '(' :: r := by
          conv_lhs => rw [← List.takeWhile_append_dropWhile isPyWs u3]
          rw [hdw]
        have hu1 : u1 = u1.takeWhile isPyWs ++ (meth ++ u3) := by
          conv_lhs => rw [← List.takeWhile_append_dropWhile isPyWs u1]
          rw [hu2]
        refine ⟨u1.takeWhile isPyWs, u3.takeWhile isPyWs, r, ?_,
          takeWhile_all _ _, takeWhile_all _ _⟩
        rw [hu]
        conv_lhs => rw [hu1]
        conv_lhs => rw [hu3]
        simp

theorem cppQualAt_construct (cls meth w1 w2 rest : Str)
    (hw1 : ∀ c ∈ w1, isPyWs c = true) (hw2 : ∀ c ∈ w2, isPyWs c = true)
    (hm : ∀ c ∈ meth, wordColon c = true) :
    cppQualAt cls meth
      (cls ++ ':' :: ':' :: (w1 ++ meth ++ w2 ++ '(' :: rest)) = true := by
  have hsplit : cls ++ ':' :: ':' :: (w1 ++ meth ++ w2 ++ '(' :: rest) =
      (cls ++ [':', ':']) ++ (w1 ++ meth ++ w2 ++ '(' :: rest) := by simp
  unfold cppQualAt
  rw [hsplit, dropLit_construct]
  cases meth with
  | nil =>
    have hdw : ((w1 ++ ([] : Str) ++ w2 ++ '(' :: rest)).dropWhile isPyWs =
        '(' :: rest := by
      rw [show (w1 ++ ([] : Str) ++ w2 ++ '(' :: rest) = (w1 ++ w2) ++ '(' :: rest
        from by simp]
      refine dropWhile_all_append isPyWs '(' rest (by decide) (w1 ++ w2) ?_
      intro c hc
      rcases List.mem_append.mp hc with h | h
      exacts [hw1 c h, hw2 c h]
    show (match dropLit [] (((w1 ++ ([] : Str) ++ w2 ++ '(' :: rest)).dropWhile
        isPyWs) with
      | none => false
      | some u3 => decide ((u3.dropWhile isPyWs).head? = some '(')) = true
    rw [hdw, show ('(' :: rest : Str) = [] ++ '(' :: rest from rfl, dropLit_construct]
    show decide ((((('(' :: rest : Str)).dropWhile isPyWs)).head? = some '(') = true
    rw [List.dropWhile_cons, if_neg (by decide)]
    simp
  | cons m0 mt =>
    have h0 : isPyWs m0 = false := wordColon_not_ws m0 (hm m0 (List.mem_cons_self _ _))
    have hdw : ((w1 ++ (m0 :: mt) ++ w2 ++ '(' :: rest)).dropWhile isPyWs =
        (m0 :: mt) ++ (w2 ++ '(' :: rest) := by
      rw [show (w1 ++ (m0 :: mt) ++ w2 ++ '(' :: rest) =
          w1 ++ m0 :: (mt ++ (w2 ++ '(' :: rest)) from by simp]
      exact dropWhile_all_append isPyWs m0 _ h0 w1 hw1
    show (match dropLit (m0 :: mt) (((w1 ++ (m0 :: mt) ++ w2 ++ '(' :: rest)).dropWhile
        isPyWs) with
      | none => false
      | some u3 => decide ((u3.dropWhile isPyWs).head? = some '(')) = true
    rw [hdw, dropLit_construct]
    show decide ((((w2 ++ '(' :: rest)).dropWhile isPyWs).head? = some '(') = true
    rw [dropWhile_all_append isPyWs '(' rest (by decide) w2 hw2]
    simp

theorem gScan_decomp (name : Str) :
    ∀ (u : Str) (b : Bool), gScan name b u = true →
      ∃ d, d ≤ u.length ∧ (∀ c ∈ u.take d, cppPrefixChar c = true) ∧
        matchNameParen name (u.drop d) = true := by
  intro u
  induction u with
  | nil => intro b h; simp [gScan] at h
  | cons c t ih =>
    intro b h
    unfold gScan at h
    by_cases hc : cppPrefixChar c = true
    · rw [if_pos hc, Bool.or_eq_true] at h
      rcases h with h | h
      · rw [Bool.and_eq_true, Bool.and_eq_true] at h
        refine ⟨1, by simp, ?_, by simpa using h.2⟩
        intro x hx
        simp only [List.take_succ_cons, List.take_zero] at hx
        rcases List.mem_singleton.mp hx with rfl
        exact hc
      · obtain ⟨d, hd1, hd2, hd3⟩ := ih true h
        refine ⟨d + 1, by simpa using Nat.succ_le_succ hd1, ?_,
          by rwa [List.drop_succ_cons]⟩
        intro x hx
        rw [List.take_succ_cons] at hx
        rcases List.mem_cons.mp hx with rfl | hx
        · exact hc
        · exact hd2 x hx
    · rw [if_neg hc] at h
      cases h

theorem cppHeaderAt_decomp (fname u : Str) (h : cppHeaderAt fname u = true) :
    ∃ d, d ≤ u.length ∧ (∀ c ∈ u.take d, cppPrefixChar c = true) ∧
      coreAt fname (u.drop d) = true := by
  unfold cppHeaderAt at h
  cases hs : splitDC fname with
  | some p =>
    rw [hs] at h
    exact ⟨0, by simp, by simp, by unfold coreAt; rw [hs]; simpa using h⟩
  | none =>
    rw [hs] at h
    rw [Bool.or_eq_true] at h
    rcases h with h | h
    · exact ⟨0, by simp, by simp, by unfold coreAt; rw [hs]; simpa using h⟩
    · obtain ⟨d, h1, h2, h3⟩ := gScan_decomp fname u false h
      exact ⟨d, h1, h2, by unfold coreAt; rw [hs]; exact h3⟩

theorem coreAt_decomp (fname u : Str) (hfw : ∀ c ∈ fname, wordColon c = true)
    (hne : fname ≠ []) (h : coreAt fname u = true) :
    ∃ pre rest, u = pre ++ '(' :: rest ∧
      (∀ c ∈ pre, ¬(c = '\x7b' ∨ c = '\x7d')) ∧
      (∀ n : Str, coreAt fname (pre ++ '(' :: n) = true) ∧
      (∀ c0, (pre ++ '(' :: rest).head? = some c0 → isPyWs c0 = false) := by
  unfold coreAt at h ⊢
  cases hs : splitDC fname with
  | none =>
    rw [hs] at h
    replace h : matchNameParen fname u = true := h
    obtain ⟨w, rest, hu, hw⟩ := matchNameParen_decomp fname u h
    refine ⟨fname ++ w, rest, by rw [hu], ?_, ?_, ?_⟩
    · intro c hc
      rcases List.mem_append.mp hc with hcf | hcw
      · exact wordColon_not_brace c (hfw c hcf)
      · exact isPyWs_not_brace c (hw c hcw)
    · intro n
      have := matchNameParen_construct fname w n hw
      rw [show fname ++ w ++ '(' :: n = (fname ++ w) ++ '(' :: n from by simp] at this
      exact this
    · intro c0 hc0
      cases fname with
      | nil => exact absurd rfl hne
      | cons f0 ft =>
        simp only [List.cons_append, List.head?_cons, Option.some.injEq] at hc0
        exact hc0 ▸ wordColon_not_ws f0 (hfw f0 (List.mem_cons_self _ _))
  | some p =>
    rw [hs] at h
    replace h : cppQualAt p.1 p.2 u = true := h
    obtain ⟨w1, w2, rest, hu, hw1, hw2⟩ := cppQualAt_decomp p.1 p.2 u h
    have hfe := splitDC_eq fname p hs
    have hcls : ∀ c ∈ p.1, wordColon c = true := by
      intro c hc
      exact hfw c (by rw [hfe]; exact List.mem_append_left _ hc)
    have hmeth : ∀ c ∈ p.2, wordColon c = true := by
      intro c hc
      refine hfw c ?_
      rw [hfe]
      exact List.mem_append_right _ (List.mem_cons_of_mem _ (List.mem_cons_of_mem _ hc))
    refine ⟨p.1 ++ ':' :: ':' :: (w1 ++ p.2 ++ w2), rest, by rw [hu]; simp, ?_, ?_, ?_⟩
    · intro c hc
      rcases List.mem_append.mp hc with hcf | hcm
      · exact wordColon_not_brace c (hcls c hcf)
      · rcases List.mem_cons.mp hcm with rfl | hcm
        · rintro (h | h) <;> cases h
        · rcases List.mem_cons.mp hcm with rfl | hcm
          · rintro (h | h) <;> cases h
          · rcases List.mem_append.mp hcm with hcm | hcm
            · rcases List.mem_append.mp hcm with hcm | hcm
              · exact isPyWs_not_brace c (hw1 c hcm)
              · exact wordColon_not_brace c (hmeth c hcm)
            · exact isPyWs_not_brace c (hw2 c hcm)
    · intro n
      have := cppQualAt_construct p.1 p.2 w1 w2 n hw1 hw2 hmeth
      rw [show p.1 ++ ':' :: ':' :: (w1 ++ p.2 ++ w2 ++ '(' :: n) =
          (p.1 ++ ':' :: ':' :: (w1 ++ p.2 ++ w2)) ++ '(' :: n from by simp] at this
      exact this
    · intro c0 hc0
      cases hp1 : p.1 with
      | nil =>
        rw [hp1] at hc0
        simp only [List.nil_append, List.cons_append, List.head?_cons,
          Option.some.injEq] at hc0
        subst hc0
        decide
      | cons q0 qt =>
        rw [hp1] at hc0
        simp only [List.cons_append, List.head?_cons, Option.some.injEq] at hc0
        exact hc0 ▸ wordColon_not_ws q0 (hcls q0 (by rw [hp1]; exact List.mem_cons_self _ _))

theorem extract_some_inv (content fname s : Str)
    (hx : extract_cpp_function content fname = some s) :
    ∃ start bs off, searchIdx (cppHeaderAt fname) content = some start ∧
      findIdxFrom '\x7b' content start = some bs ∧
      braceClose (content.drop bs) 0 = some off ∧
      s = stripStr (sliceStr content (lineStartAt content start) (bs + off + 1)) := by
  unfold extract_cpp_function at hx
  by_cases hc : content = []
  · rw [if_pos hc] at hx
    cases hx
  · rw [if_neg hc] at hx
    split at hx
    · cases hx
    · rename_i start hsearch
      split at hx
      · cases hx
      · rename_i bs hfind
        split at hx
        · cases hx
        · rename_i off hbrace
          rw [Option.some.injEq] at hx
          exact ⟨start, bs, off, hsearch, hfind, hbrace, hx.symm⟩

theorem head_drop_append_ne (l1 l2 : Str) (k : Nat) (a : Char)
    (hk : k < l1.length) (hne2 : ∀ c ∈ l1, c ≠ a) :
    ¬ ((l1 ++ l2).drop k).head? = some a := by
  intro h
  rw [List.head?_drop, List.getElem?_append_left hk, List.getElem?_eq_getElem hk] at h
  simp only [Option.some.injEq] at h
  exact hne2 _ (List.getElem_mem hk) h

theorem head_take_pos (l : Str) (n : Nat) (hn : 0 < n) :
    (l.take n).head? = l.head? := by
  cases l with
  | nil => simp
  | cons c t =>
    cases n with
    | zero => omega
    | succ m => simp

theorem takeWhile_length_le (p : Char → Bool) :
    ∀ (l : Str) (q : Nat) (c0 : Char), (l.drop q).head? = some c0 → p c0 = false →
      (l.takeWhile p).length ≤ q := by
  intro l
  induction l with
  | nil =>
    intro q c0 h
    rw [List.drop_nil] at h
    cases h
  | cons c t ih =>
    intro q c0 h hp
    cases q with
    | zero =>
      rw [List.drop_zero] at h
      simp only [List.head?_cons, Option.some.injEq] at h
      subst h
      rw [List.takeWhile_cons, if_neg (by rw [hp]; exact Bool.false_ne_true)]
      simp
    | succ q' =>
      rw [List.drop_succ_cons] at h
      rw [List.takeWhile_cons]
      by_cases hc : p c = true
      · rw [if_pos hc]
        have := ih q' c0 h hp
        simp only [List.length_cons]
        omega
      · rw [if_neg hc]
        simp

theorem dropWhile_append_last (a : Char) (ha : isPyWs a = false) :
    ∀ v : Str, ∃ w, (v ++ [a]).dropWhile isPyWs = w ++ [a] := by
  intro v
  induction v with
  | nil => exact ⟨[], by simp [List.dropWhile_cons, ha]⟩
  | cons c t ih =>
    by_cases h : isPyWs c = true
    · obtain ⟨w, hw⟩ := ih
      exact ⟨w, by rw [List.cons_append, List.dropWhile_cons, if_pos h]; exact hw⟩
    · exact ⟨c :: t, by rw [List.cons_append, List.dropWhile_cons, if_neg h]⟩

theorem strip_last_not_ws (v : Str) (a : Char) (ha : isPyWs a = false) :
    stripStr (v ++ [a]) = (v ++ [a]).dropWhile isPyWs := by
  unfold stripStr
  obtain ⟨w, hw⟩ := dropWhile_append_last a ha v
  rw [hw]
  rw [List.reverse_append]
  simp only [List.reverse_cons, List.reverse_nil, List.nil_append, List.singleton_append]
  rw [List.dropWhile_cons, if_neg (by rw [ha]; exact Bool.false_ne_true)]
  simp

/-- C1 amended: when `extract_cpp_function` returns a string for a
function name made of word characters and `::`, and the content from
the start of the header's line to the body's opening brace is free of
brace characters, the returned string has equally many opening and
closing braces and contains the function's header token (the name, or
`Class::method`, followed after optional whitespace by an opening
parenthesis) — though not necessarily on its first line. -/
theorem C1_balanced_extraction (content fname s : Str)
    (hfw : ∀ c ∈ fname, wordColon c = true) (hne : fname ≠ [])
    (hx : extract_cpp_function content fname = some s)
    (hb : signatureBraceFree content fname = true) :
    s.count '\x7b' = s.count '\x7d' ∧ containsHeaderTok fname s = true := by
  obtain ⟨start, bs, off, hsearch, hfind, hbrace, hseq⟩ :=
    extract_some_inv content fname s hx
  have hls : lineStartAt content start ≤ start := lineStartAt_le content start
  obtain ⟨hsb, hbh, hbmin⟩ := findIdxFrom_spec '\x7b' content start bs hfind
  obtain ⟨hsl, hmatch⟩ := searchIdx_spec _ content start hsearch
  obtain ⟨hoff, hclose⟩ := braceClose_last (content.drop bs) 0 off hbrace
  have hbal := braceClose_balance (content.drop bs) 0 off hbrace
  obtain ⟨d, hdlen, hdcls, hcore⟩ := cppHeaderAt_decomp fname (content.drop start) hmatch
  obtain ⟨pre, rest, hu, hpre_nb, hre, hhead⟩ :=
    coreAt_decomp fname ((content.drop start).drop d) hfw hne hcore
  have hdecomp : content.drop start =
      (content.drop start).take d ++ (pre ++ '(' :: rest) := by
    conv_lhs => rw [← List.take_append_drop d (content.drop start)]
    rw [hu]
  have htklen : ((content.drop start).take d).length = d := by
    rw [List.length_take]
    omega
  have hcore_end : start + d + pre.length + 1 ≤ bs := by
    by_contra hlt
    push_neg at hlt
    have h1 : content.drop bs = (content.drop start).drop (bs - start) := by
      rw [List.drop_drop]
      congr 1
      omega
    have hshape : content.drop start =
        ((content.drop start).take d ++ pre ++ ['(']) ++ rest := by
      conv_lhs => rw [hdecomp]
      simp
    rw [h1, hshape] at hbh
    refine head_drop_append_ne _ rest (bs - start) '\x7b' ?_ ?_ hbh
    · simp only [List.length_append, List.length_cons, List.length_nil, htklen]
      omega
    · intro c hc
      rcases List.mem_append.mp hc with hcc | hcc
      · rcases List.mem_append.mp hcc with hcc | hcc
        · intro he
          subst he
          exact absurd (hdcls _ hcc) (by decide)
        · exact fun he => hpre_nb c hcc (Or.inl he)
      · rcases List.mem_singleton.mp hcc with rfl
        decide
  have hbslen : bs < content.length := by
    by_contra hge
    push_neg at hge
    rw [List.drop_eq_nil_of_le hge] at hbh
    cases hbh
  have hslice : sliceStr content (lineStartAt content start) (bs + off + 1) =
      sliceStr content (lineStartAt content start) bs ++
        (content.drop bs).take (off + 1) := by
    unfold sliceStr
    have h1 : bs + off + 1 - lineStartAt content start =
        (bs - lineStartAt content start) + (off + 1) := by omega
    have h2 : (content.drop (lineStartAt content start)).drop
        (bs - lineStartAt content start) = content.drop bs := by
      rw [List.drop_drop]
      congr 1
      omega
    rw [h1, List.take_add, h2]
  have hjunk : ∀ c ∈ sliceStr content (lineStartAt content start) bs,
      ¬(c = '\x7b' ∨ c = '\x7d') := by
    unfold signatureBraceFree at hb
    split at hb
    · rename_i hnone
      rw [hnone] at hsearch
      cases hsearch
    · rename_i start' hsome
      rw [hsome, Option.some.injEq] at hsearch
      subst hsearch
      split at hb
      · rename_i hfnone
        rw [hfnone] at hfind
        cases hfind
      · rename_i bs' hfsome
        rw [hfsome, Option.some.injEq] at hfind
        subst hfind
        intro c hc
        have hall := List.all_eq_true.mp hb c hc
        simp at hall
        rintro (rfl | rfl)
        · exact hall.1 rfl
        · exact hall.2 rfl
  have hjunkb : (sliceStr content (lineStartAt content start) bs).count '\x7b' = 0 := by
    rw [List.count_eq_zero]
    intro hm
    exact hjunk _ hm (Or.inl rfl)
  have hjunkc : (sliceStr content (lineStartAt content start) bs).count '\x7d' = 0 := by
    rw [List.count_eq_zero]
    intro hm
    exact hjunk _ hm (Or.inr rfl)
  have hbody : ((content.drop bs).take (off + 1)).count '\x7b' =
      ((content.drop bs).take (off + 1)).count '\x7d' := by
    have h2 : (((content.drop bs).take (off + 1)).count '\x7b' : Int) =
        ((content.drop bs).take (off + 1)).count '\x7d' := by simpa using hbal
    exact_mod_cast h2
  obtain ⟨v, hv⟩ : ∃ v, sliceStr content (lineStartAt content start) (bs + off + 1) =
      v ++ ['\x7d'] := by
    refine ⟨sliceStr content (lineStartAt content start) bs ++
      (content.drop bs).take off, ?_⟩
    rw [hslice]
    have hoffq : (content.drop bs)[off]? = some '\x7d' := by
      rw [← List.head?_drop]
      exact hclose
    rw [List.take_succ, hoffq]
    simp
  have hstrip : s =
      (sliceStr content (lineStartAt content start) (bs + off + 1)).dropWhile isPyWs := by
    rw [hseq, hv, strip_last_not_ws v '\x7d' (by decide), ← hv]
  have hcount : ∀ a : Char, isPyWs a = false →
      s.count a = (sliceStr content (lineStartAt content start) (bs + off + 1)).count a := by
    intro a haws
    rw [hstrip]
    exact count_dropWhile isPyWs a haws _
  constructor
  · rw [hcount '\x7b' (by decide), hcount '\x7d' (by decide), hslice,
      List.count_append, List.count_append, hjunkb, hjunkc, hbody]
  · have hqlist : content.drop (start + d) = pre ++ '(' :: rest := by
      rw [← hu, List.drop_drop]
    obtain ⟨c0, hc0⟩ : ∃ c0, ((pre ++ '(' :: rest : Str)).head? = some c0 := by
      cases pre with
      | nil => exact ⟨'(', rfl⟩
      | cons a t => exact ⟨a, rfl⟩
    have hc0ws : isPyWs c0 = false := hhead c0 hc0
    have hsliceq : (sliceStr content (lineStartAt content start) (bs + off + 1)).drop
        (start + d - lineStartAt content start) =
        (content.drop (start + d)).take (bs + off + 1 - (start + d)) := by
      have e1 : lineStartAt content start +
          (start + d - lineStartAt content start) = start + d := by omega
      have e2 : bs + off + 1 - lineStartAt content start -
          (start + d - lineStartAt content start) = bs + off + 1 - (start + d) := by
        omega
      unfold sliceStr
      rw [List.drop_take, List.drop_drop, e1, e2]
    have htake : (content.drop (start + d)).take (bs + off + 1 - (start + d)) =
        pre ++ '(' :: (rest.take (bs + off + 1 - (start + d) - pre.length - 1)) := by
      rw [hqlist, List.take_append_eq_append_take,
        List.take_of_length_le (by omega : pre.length ≤ bs + off + 1 - (start + d))]
      congr 1
      have hm : bs + off + 1 - (start + d) - pre.length =
          (bs + off + 1 - (start + d) - pre.length - 1) + 1 := by omega
      rw [hm, List.take_succ_cons]
      simp
    have hts : ((sliceStr content (lineStartAt content start)
        (bs + off + 1)).takeWhile isPyWs).length ≤
        start + d - lineStartAt content start := by
      refine takeWhile_length_le isPyWs _ _ c0 ?_ hc0ws
      rw [hsliceq, head_take_pos _ _ (by omega), hqlist]
      exact hc0
    unfold containsHeaderTok
    refine anySuffix_of_drop (coreAt fname) s
      ((start + d - lineStartAt content start) -
        ((sliceStr content (lineStartAt content start)
          (bs + off + 1)).takeWhile isPyWs).length) ?_
    rw [hstrip, dropWhile_eq_drop, List.drop_drop]
    have harith : ((sliceStr content (lineStartAt content start)
        (bs + off + 1)).takeWhile isPyWs).length +
        ((start + d - lineStartAt content start) -
          ((sliceStr content (lineStartAt content start)
            (bs + off + 1)).takeWhile isPyWs).length) =
        start + d - lineStartAt content start := by omega
    rw [harith, hsliceq, htake]
    exact hre _

/-- C1 counterexample: a well-nested, brace-delimited input with nested
braces (a brace-wrapped block around a two-line definition) on which
`extract_cpp_function` locates the header of `foo` and returns a
string, yet that string has two opening and three closing braces...
no: three opening and two closing braces, and its first line
`\x7b void` contains neither `foo` nor `foo(`.  The slice starts at
the header line's first character, which precedes the stray opening
brace's region, and the depth counter starts only at the first brace
after the match, so the leading brace of the line is never matched. -/
theorem C1_counterexample :
    nestedBraces c1cex = true ∧ wellNested c1cex = true ∧
    extract_cpp_function c1cex ("foo".toList) = some c1cexOut ∧
    ¬ (c1cexOut.count '\x7b' = c1cexOut.count '\x7d') ∧
    containsSub ("foo".toList) (firstLine c1cexOut) = false := by
  exact ⟨by decide, by decide, by decide, by decide, by decide⟩

/-- C1 witness: a return type on its own line followed by a body with a
nested block; the extraction is balanced and contains the header
token. -/
theorem C1_witness :
    c1good.count '\x7b' = c1good.count '\x7d' ∧
    containsHeaderTok ("foo".toList) c1good = true :=
  C1_balanced_extraction c1good ("foo".toList) c1good (by decide) (by decide)
    (by decide) (by decide)

theorem alookup_aset_eq {β : Type} (m : List (Str × β)) (k k' : Str) (v : β) :
    alookup (aset m k v) k' = if k' = k then some v else alookup m k' := by
  induction m with
  | nil =>
    simp only [aset, alookup]
    by_cases h : k' = k
    · rw [if_pos h, if_pos h.symm]
    · rw [if_neg h, if_neg (fun he => h he.symm)]
  | cons p t ih =>
    simp only [aset]
    by_cases hp : p.1 = k
    · rw [if_pos hp]
      simp only [alookup]
      by_cases h : k' = k
      · rw [if_pos h, if_pos h.symm]
      · rw [if_neg h, if_neg (fun he => h he.symm), if_neg (fun he => h ((hp.symm.trans he).symm))]
    · rw [if_neg hp]
      simp only [alookup, ih]
      by_cases hq : p.1 = k'
      · rw [if_pos hq, if_neg (fun he => hp (hq.trans he)), if_pos hq]
      · rw [if_neg hq]
        by_cases h : k' = k
        · rw [if_pos h, if_pos h]
        · rw [if_neg h, if_neg h, if_neg hq]

theorem nlookup_nset_eq {β : Type} (m : List (Nat × β)) (k k' : Nat) (v : β) :
    nlookup (nset m k v) k' = if k' = k then some v else nlookup m k' := by
  induction m with
  | nil =>
    simp only [nset, nlookup]
    by_cases h : k' = k
    · rw [if_pos h, if_pos h.symm]
    · rw [if_neg h, if_neg (fun he => h he.symm)]
  | cons p t ih =>
    simp only [nset]
    by_cases hp : p.1 = k
    · rw [if_pos hp]
      simp only [nlookup]
      by_cases h : k' = k
      · rw [if_pos h, if_pos h.symm]
      · rw [if_neg h, if_neg (fun he => h he.symm), if_neg (fun he => h ((hp.symm.trans he).symm))]
    · rw [if_neg hp]
      simp only [nlookup, ih]
      by_cases hq : p.1 = k'
      · rw [if_pos hq, if_neg (fun he => hp (hq.trans he)), if_pos hq]
      · rw [if_neg hq]
        by_cases h : k' = k
        · rw [if_pos h, if_pos h]
        · rw [if_neg h, if_neg h, if_neg hq]

theorem alookup_eq_none_of_not_key {β : Type} (m : List (Str × β)) (k : Str)
    (h : ∀ kv ∈ m, kv.1 ≠ k) : alookup m k = none := by
  induction m with
  | nil => rfl
  | cons p t ih =>
    simp only [alookup]
    rw [if_neg (h p (List.mem_cons_self p t))]
    exact ih (fun kv hkv => h kv (List.mem_cons_of_mem p hkv))

theorem processFunction_covered (env : NetEnv) (patches : List (Str × PatchInfo))
    (ffm : List (Str × Str)) (m : List (Str × Entry))
    (acc : List (Str × Entry) × List NetCall) (fname : Str) (v : Entry)
    (h : alookup m fname = some v) :
    processFunction env patches ffm m acc fname = (aset acc.1 fname v, acc.2) := by
  unfold processFunction
  rw [h]

theorem foldl_processFunction_spec (env : NetEnv) (patches : List (Str × PatchInfo))
    (ffm : List (Str × Str)) (m : List (Str × Entry)) :
    ∀ (names : List Str), (∀ fn ∈ names, (alookup m fn).isSome = true) →
    ∀ (acc : List (Str × Entry) × List NetCall),
      (names.foldl (processFunction env patches ffm m) acc).2 = acc.2 ∧
      ∀ k, alookup (names.foldl (processFunction env patches ffm m) acc).1 k =
        if k ∈ names then alookup m k else alookup acc.1 k := by
  intro names
  induction names with
  | nil =>
    intro _ acc
    exact ⟨rfl, fun k => (if_neg (List.not_mem_nil k)).symm⟩
  | cons fn t ih =>
    intro hcov acc
    obtain ⟨v, hv⟩ := Option.isSome_iff_exists.mp (hcov fn (List.mem_cons_self fn t))
    rw [List.foldl_cons, processFunction_covered env patches ffm m acc fn v hv]
    obtain ⟨ih2, ih1⟩ := ih (fun g hg => hcov g (List.mem_cons_of_mem fn hg)) (aset acc.1 fn v, acc.2)
    refine ⟨ih2, fun k => ?_⟩
    rw [ih1 k]
    by_cases hkt : k ∈ t
    · rw [if_pos hkt, if_pos (List.mem_cons_of_mem fn hkt)]
    · rw [if_neg hkt]
      by_cases hkf : k = fn
      · rw [hkf, if_pos (List.mem_cons_self fn t)]
        show alookup (aset acc.1 fn v) fn = alookup m fn
        rw [alookup_aset_eq, if_pos rfl, hv]
      · rw [if_neg (fun hm => (List.mem_cons.mp hm).elim hkf hkt)]
        show alookup (aset acc.1 fn v) k = alookup acc.1 k
        rw [alookup_aset_eq, if_neg hkf]

theorem process_pr_covered (env : NetEnv) (pr : PRRec)
    (existing : List (Nat × List (Str × Entry))) (mf : ModFuncs)
    (m : List (Str × Entry))
    (hmf : pr.modified_functions = some mf)
    (hall : ¬ mf.all = []) (hp : ¬ pr.patches = [])
    (hex : nlookup existing pr.number = some m)
    (hcov : ∀ fn ∈ mf.all, (alookup m fn).isSome = true)
    (hres : ∀ kv ∈ m, kv.1 ∈ mf.all) :
    (process_pr env pr existing).2 = [] ∧
    ∀ k, alookup (process_pr env pr existing).1 k = alookup m k := by
  have hrw : process_pr env pr existing =
      mf.all.foldl (processFunction env pr.patches (function_file_map mf.by_file) m) ([], []) := by
    unfold process_pr
    rw [hmf]
    show (if mf.all = [] then (([], []) : List (Str × Entry) × List NetCall)
        else if pr.patches = [] then ([], [])
        else mf.all.foldl (processFunction env pr.patches (function_file_map mf.by_file)
          ((nlookup existing pr.number).getD [])) ([], [])) =
      mf.all.foldl (processFunction env pr.patches (function_file_map mf.by_file) m) ([], [])
    rw [if_neg hall, if_neg hp, hex]
    rfl
  obtain ⟨h2, h1⟩ := foldl_processFunction_spec env pr.patches
    (function_file_map mf.by_file) m mf.all hcov (([], []) : List (Str × Entry) × List NetCall)
  rw [hrw]
  refine ⟨h2, fun k => ?_⟩
  rw [h1 k]
  by_cases hk : k ∈ mf.all
  · rw [if_pos hk]
  · rw [if_neg hk]
    show (none : Option Entry) = alookup m k
    exact (alookup_eq_none_of_not_key m k (fun kv hkv hke => hk (hke ▸ hres kv hkv))).symm

theorem entriesAgree_refl (o : Option (List (Str × Entry))) : entriesAgree o o := by
  cases o with
  | none => exact trivial
  | some a => exact fun k => rfl

theorem entryKeyEq_of_agree (a b : List (Str × Entry)) (k : Str)
    (h : alookup a k = alookup b k) : entryKeyEq a b k = true := by
  unfold entryKeyEq
  rw [h]
  cases alookup b k with
  | none => rfl
  | some v => simp

theorem innerEqB_of_agree (a b : List (Str × Entry))
    (h : ∀ k, alookup a k = alookup b k) : innerEqB a b = true := by
  unfold innerEqB
  rw [List.all_eq_true]
  exact fun k _ => entryKeyEq_of_agree a b k (h k)

theorem prKeyEq_of_agree (m1 m2 : List (Nat × List (Str × Entry))) (n : Nat)
    (h : entriesAgree (nlookup m1 n) (nlookup m2 n)) : prKeyEq m1 m2 n = true := by
  unfold prKeyEq
  revert h
  cases h1 : nlookup m1 n with
  | none =>
    cases h2 : nlookup m2 n with
    | none => intro _; rfl
    | some b => intro h; exact False.elim h
  | some a =>
    cases h2 : nlookup m2 n with
    | none => intro h; exact False.elim h
    | some b => exact innerEqB_of_agree a b

theorem outerEqB_of_agree (m1 m2 : List (Nat × List (Str × Entry)))
    (h : ∀ n, entriesAgree (nlookup m1 n) (nlookup m2 n)) :
    outerEqB m1 m2 = true := by
  unfold outerEqB
  rw [List.all_eq_true]
  exact fun n _ => prKeyEq_of_agree m1 m2 n (h n)

theorem foldl_invariant {α β : Type} (f : β → α → β) (P : β → Prop)
    (l : List α) (init : β) (h0 : P init)
    (hstep : ∀ acc x, x ∈ l → P acc → P (f acc x)) :
    P (l.foldl f init) := by
  induction l generalizing init with
  | nil => exact h0
  | cons a t ih =>
    exact ih (f init a) (hstep init a (List.mem_cons_self a t) h0)
      (fun acc x hx => hstep acc x (List.mem_cons_of_mem a hx))

theorem c3_step_preserves (env : NetEnv) (existing : List (Nat × List (Str × Entry)))
    (acc : List (Nat × List (Str × Entry)) × List NetCall) (pr : PRRec)
    (hP1 : ∀ n, entriesAgree (nlookup acc.1 n) (nlookup existing n))
    (hP2 : acc.2 = [])
    (h2 : (process_pr env pr existing).2 = [])
    (h1 : (process_pr env pr existing).1 = [] ∨
      ∃ m, nlookup existing pr.number = some m ∧
        ∀ k, alookup (process_pr env pr existing).1 k = alookup m k) :
    (∀ n, entriesAgree (nlookup (if (process_pr env pr existing).1 = [] then acc.1
        else nset acc.1 pr.number (process_pr env pr existing).1) n) (nlookup existing n)) ∧
    acc.2 ++ (process_pr env pr existing).2 = [] := by
  refine ⟨fun n => ?_, by rw [h2, List.append_nil]; exact hP2⟩
  by_cases hnil : (process_pr env pr existing).1 = []
  · rw [if_pos hnil]; exact hP1 n
  · rw [if_neg hnil]
    obtain ⟨m, hm, hpt⟩ := h1.resolve_left hnil
    rw [nlookup_nset_eq]
    by_cases hn : n = pr.number
    · rw [if_pos hn, hn, hm]
      exact hpt
    · rw [if_neg hn]; exact hP1 n

theorem process_pr_none (env : NetEnv) (pr : PRRec)
    (existing : List (Nat × List (Str × Entry)))
    (hmf : pr.modified_functions = none) :
    process_pr env pr existing = ([], []) := by
  unfold process_pr
  rw [hmf]

theorem process_pr_eq (env : NetEnv) (pr : PRRec)
    (existing : List (Nat × List (Str × Entry))) (mf : ModFuncs)
    (hmf : pr.modified_functions = some mf) :
    process_pr env pr existing =
      if mf.all = [] then ([], [])
      else if pr.patches = [] then ([], [])
      else mf.all.foldl (processFunction env pr.patches (function_file_map mf.by_file)
        ((nlookup existing pr.number).getD [])) ([], []) := by
  unfold process_pr
  rw [hmf]

theorem c3_per_pr_facts (env : NetEnv) (pr_data : List PRRec)
    (existing : List (Nat × List (Str × Entry)))
    (hcov : derivedCovered pr_data existing = true)
    (hres : priorRestricted pr_data existing = true) :
    ∀ pr ∈ pr_data,
      (process_pr env pr existing).2 = [] ∧
      ((process_pr env pr existing).1 = [] ∨
        ∃ m, nlookup existing pr.number = some m ∧
          ∀ k, alookup (process_pr env pr existing).1 k = alookup m k) := by
  intro pr hpr
  have hc := List.all_eq_true.mp hcov pr hpr
  have hr := List.all_eq_true.mp hres pr hpr
  unfold prCovered at hc
  unfold prRestricted at hr
  cases hmf : pr.modified_functions with
  | none =>
    have he := process_pr_none env pr existing hmf
    exact ⟨by rw [he], Or.inl (by rw [he])⟩
  | some mf =>
    rw [hmf] at hc hr
    have he := process_pr_eq env pr existing mf hmf
    by_cases hall : mf.all = []
    · rw [if_pos hall] at he
      exact ⟨by rw [he], Or.inl (by rw [he])⟩
    · by_cases hpat : pr.patches = []
      · rw [if_neg hall, if_pos hpat] at he
        exact ⟨by rw [he], Or.inl (by rw [he])⟩
      · replace hc : mf.all.all
            (fun fn => (alookup ((nlookup existing pr.number).getD []) fn).isSome) = true := hc
        replace hr : (if mf.all = [] then true else if pr.patches = [] then true
            else match nlookup existing pr.number with
              | none => true
              | some m => m.all (fun kv => mf.all.contains kv.1)) = true := hr
        rw [if_neg hall, if_neg hpat] at hr
        cases hex : nlookup existing pr.number with
        | none =>
          exfalso
          obtain ⟨fn0, hfn0⟩ := List.exists_mem_of_ne_nil mf.all hall
          have h := List.all_eq_true.mp hc fn0 hfn0
          replace h : (alookup ((nlookup existing pr.number).getD []) fn0).isSome = true := h
          rw [hex] at h
          simp [alookup] at h
        | some m =>
          rw [hex] at hr
          replace hr : m.all (fun kv => mf.all.contains kv.1) = true := hr
          have hcovm : ∀ fn ∈ mf.all, (alookup m fn).isSome = true := by
            intro fn hfn
            have h := List.all_eq_true.mp hc fn hfn
            replace h : (alookup ((nlookup existing pr.number).getD []) fn).isSome = true := h
            rw [hex] at h
            exact h
          have hresm : ∀ kv ∈ m, kv.1 ∈ mf.all := by
            intro kv hkv
            have h := List.all_eq_true.mp hr kv hkv
            replace h : mf.all.contains kv.1 = true := h
            exact (contains_iff_mem mf.all kv.1).mp h
          have hmain := process_pr_covered env pr existing mf m hmf hall hpat hex hcovm hresm
          exact ⟨hmain.1, Or.inr ⟨m, rfl, hmain.2⟩⟩

/-- C3 (amended): when every function name in a record's
`modified_functions.all` already has an entry in the prior results under
that PR number, and the prior entry for a processed PR has keys only
among that record's `all` list, rerunning `process_all_prs` returns a
store extensionally equal to the prior results and performs no parent
resolution, download, or extraction. -/
theorem C3_idempotent_restricted (env : NetEnv) (pr_data : List PRRec)
    (existing : List (Nat × List (Str × Entry)))
    (hcov : derivedCovered pr_data existing = true)
    (hres : priorRestricted pr_data existing = true) :
    outerEqB (process_all_prs env pr_data existing).1 existing = true ∧
    (process_all_prs env pr_data existing).2 = [] := by
  have hfacts := c3_per_pr_facts env pr_data existing hcov hres
  have hmain : (∀ n, entriesAgree (nlookup (process_all_prs env pr_data existing).1 n)
      (nlookup existing n)) ∧ (process_all_prs env pr_data existing).2 = [] := by
    show (fun acc : List (Nat × List (Str × Entry)) × List NetCall =>
        (∀ n, entriesAgree (nlookup acc.1 n) (nlookup existing n)) ∧ acc.2 = [])
      (process_all_prs env pr_data existing)
    unfold process_all_prs
    refine foldl_invariant
      (fun acc pr =>
        let r := process_pr env pr existing
        (if r.1 = [] then acc.1 else nset acc.1 pr.number r.1, acc.2 ++ r.2))
      (fun acc => (∀ n, entriesAgree (nlookup acc.1 n) (nlookup existing n)) ∧ acc.2 = [])
      pr_data (existing, []) ?_ ?_
    · exact ⟨fun n => entriesAgree_refl _, rfl⟩
    intro acc pr hpr hP
    exact c3_step_preserves env existing acc pr hP.1 hP.2 (hfacts pr hpr).1 (hfacts pr hpr).2
  exact ⟨outerEqB_of_agree _ _ hmain.1, hmain.2⟩

/-- C3 counterexample: every (PR number, function name) pair derived
from the input's `modified_functions.all` lists is present in the prior
results (`derivedCovered` holds), no external work happens, yet the
output differs from the prior results: the prior entry for PR 1 holds a
stale key `g` absent from `all`, and `process_pr` rebuilds the per-PR
dict from `all` alone, so `g` is dropped and the stored map shrinks. -/
theorem C3_counterexample :
    derivedCovered c3pr c3exist = true ∧
    (process_all_prs c3env c3pr c3exist).2 = [] ∧
    outerEqB (process_all_prs c3env c3pr c3exist).1 c3exist = false := by
  exact ⟨by decide, by decide, by decide⟩

/-- C3 witness: on a covered and restricted concrete instance the rerun
returns the prior results unchanged with no external calls. -/
theorem C3_witness :
    outerEqB (process_all_prs c3env c3pr c3exist2).1 c3exist2 = true ∧
    (process_all_prs c3env c3pr c3exist2).2 = [] :=
  C3_idempotent_restricted c3env c3pr c3exist2 (by decide) (by decide)
